import Mathlib

/-!
Verification development for the BikeTags extension (Bike Outliner custom
extensions repository).  The TypeScript tagging engine from the extension
entry point is shallowly embedded here: JavaScript strings are modelled as
`List Char` (sequences of characters), row attribute bags as `Option`-valued
fields, and the imperative update procedures as pure functions that return
the new row state together with the list of mutation events they perform.
All definitions are translated from the source; definitions whose name ends
in `Spec` restate the natural-language specification and are compared with
the source-derived ones.
-/

set_option maxRecDepth 10000

/-- A JavaScript string, modelled as its sequence of characters. -/
abbrev Str := List Char

/-- Characters matched by the JavaScript regex class `\s` (whitespace). -/
def isJsWs (c : Char) : Bool :=
  c = ' ' || c = '\t' || c = '\n' || c = '\x0b' || c = '\x0c' || c = '\r' ||
  c.toNat = 0xa0 || c.toNat = 0x1680 ||
  (0x2000 ≤ c.toNat && c.toNat ≤ 0x200a) ||
  c.toNat = 0x2028 || c.toNat = 0x2029 || c.toNat = 0x202f ||
  c.toNat = 0x205f || c.toNat = 0x3000 || c.toNat = 0xfeff

/-- Characters matched by the JavaScript regex class `\w`. -/
def isWordChar (c : Char) : Bool :=
  (('a' ≤ c && c ≤ 'z') || ('A' ≤ c && c ≤ 'Z') || ('0' ≤ c && c ≤ '9') || c = '_')

/-- Characters matched by `[\w-]`, the character class used for tag segments. -/
def isTagChar (c : Char) : Bool :=
  isWordChar c || c = '-'

/-- JavaScript `String.prototype.trim` (same whitespace set as `\s`). -/
def jsTrim (l : Str) : Str :=
  (l.dropWhile isJsWs).rdropWhile isJsWs

/-- JavaScript `t.replace(/\/+/, '/')`: the regex has no `g` flag, so only the
first (leftmost) maximal run of `/` characters is replaced by a single `/`. -/
def collapseFirstSlashRun : Str → Str
  | [] => []
  | c :: rest =>
    if c = '/' then '/' :: rest.dropWhile (fun d => d = '/')
    else c :: collapseFirstSlashRun rest

/-- Embeds `normalizeTag` from the source: trim, ensure a leading `#`, then
apply `t.replace(/\/+/, '/')`. -/
def normalizeTag (tag : Str) : Str :=
  let t := jsTrim tag
  let t := if t.head? = some '#' then t else '#' :: t
  collapseFirstSlashRun t

/-- Whether the string contains two adjacent `/` characters (`"//"`). -/
def hasDoubleSlash : Str → Bool
  | [] => false
  | [_] => false
  | a :: b :: rest => (a = '/' && b = '/') || hasDoubleSlash (b :: rest)

/-- The part of the string strictly after its first maximal run of `/`s
(empty when the string has no `/`). -/
def afterFirstSlashRun (l : Str) : Str :=
  (l.dropWhile (fun c => ¬ c = '/')).dropWhile (fun c => c = '/')

/-- Embeds `addAncestors` from the source: split the path after the leading
`#` on `/` and emit every prefix of the segment list, shallow to deep. -/
def addAncestors (full : Str) : List Str :=
  let parts := (full.drop 1).splitOn '/'
  (List.range parts.length).map
    (fun i => '#' :: List.intercalate ['/'] (parts.take (i + 1)))

/-- Truncation of an integer to the signed 32-bit range, as performed by the
JavaScript `| 0` and `<<` operators. -/
def toInt32 (n : Int) : Int :=
  let m := n % 4294967296
  if m < 2147483648 then m else m - 4294967296

/-- One step of the hash loop in `stableIndexForTag`:
`hash = ((hash << 5) + hash) + charCode; hash |= 0`. -/
def djb2Step (h : Int) (c : Char) : Int :=
  toInt32 (toInt32 (h * 32) + h + (c.toNat : Int))

/-- Embeds `stableIndexForTag` from the source (djb2 hash, seed 5381, folded
through `Math.abs` and reduced modulo the palette size). -/
def stableIndexForTag (tag : Str) (modulo : Nat) : Nat :=
  (tag.foldl djb2Step 5381).natAbs % modulo

/-- The palette size `COLOR_COUNT` from the source. -/
def COLOR_COUNT : Nat := 8

/-- Reference djb2 definition, following the specification text: seed 5381,
`hash = hash*33 + charCode` per character truncated to a signed 32-bit
accumulator, folded to non-negative and reduced modulo the palette size. -/
def colorSlotSpec (tag : Str) (paletteSize : Nat) : Nat :=
  (tag.foldl (fun h c => toInt32 (h * 33 + (c.toNat : Int))) 5381).natAbs % paletteSize

/-- A tag token: the tag text exactly as written together with its half-open
character span.  `stop` embeds the source field `end` (a Lean keyword). -/
structure TagToken where
  tag : Str
  start : Nat
  stop : Nat
deriving DecidableEq, Repr

/-- Whether a string is a complete match of `#[\w-]+(?:\/[\w-]+)*`: a `#`
followed by non-empty `[\w-]` segments separated by single slashes. -/
def tagShaped (l : Str) : Bool :=
  match l with
  | c :: rest =>
    c = '#' && (rest.splitOn '/').all (fun seg => !seg.isEmpty && seg.all isTagChar)
  | [] => false

/-- Position `p` in `tail` starts a match of the anchored trailing-tag regex
`(?:^|\s)(#[\w-]+(?:\/[\w-]+)*)$`: the suffix from `p` is the captured tag and
it is preceded either by start-of-text or by a whitespace character. -/
def validTagStart (tail : Str) (p : Nat) : Bool :=
  tagShaped (tail.drop p) &&
  (p = 0 || (match tail[p - 1]? with | some c => isJsWs c | none => false))

/-- The capture-start position of the leftmost match of the trailing-tag
regex in `tail` (regular-expression search returns the leftmost match, and
the capture position determines the match position). -/
def findTagStart (tail : Str) : Option Nat :=
  (List.range tail.length).find? (validTagStart tail)

/-- The regex match index `m.index` for a capture starting at `p`: the match
consumes the preceding whitespace character except when it is anchored at
start-of-text. -/
def matchIdx (p : Nat) : Nat :=
  if p = 0 then 0 else p - 1

/-- The recorded token start position, with the source's `hasLeadingSpace`
adjustment (`m.index > 0 && tail[m.index] === ' '`). -/
def tokStartOf (tail : Str) (p : Nat) : Nat :=
  if decide (0 < matchIdx p) && decide (tail[matchIdx p]? = some ' ')
  then matchIdx p + 1 else matchIdx p

/-- The token recorded for a capture at position `p` of `tail`: the captured
tag text with span `[start, start + tagText.length)`. -/
def mkToken (tail : Str) (p : Nat) : TagToken :=
  ⟨tail.drop p, tokStartOf tail p, tokStartOf tail p + (tail.drop p).length⟩

/-- The scanning loop of `findTrailingTags`: repeatedly match the trailing
tag regex against the shrinking tail, recording each token's span with the
source's `hasLeadingSpace` adjustment, then cut the tail before the match and
trim trailing whitespace.  `fuel` bounds the recursion; `tail.length + 1`
always suffices. -/
def scanTrailing (fuel : Nat) (tail : Str) : List TagToken :=
  match fuel with
  | 0 => []
  | fuel + 1 =>
    match findTagStart tail with
    | none => []
    | some p =>
      scanTrailing fuel ((tail.take (matchIdx p)).rdropWhile isJsWs) ++
        [mkToken tail p]

/-- Embeds `findTrailingTags` from the source, acting on the row's text. -/
def findTrailingTags (s : Str) : List TagToken :=
  let tail := s.rdropWhile isJsWs
  scanTrailing (tail.length + 1) tail

/-- Lexicographic comparison of strings by character code, the order used by
the default JavaScript `Array.prototype.sort` on strings. -/
def lexLe : Str → Str → Bool
  | [], _ => true
  | _ :: _, [] => false
  | a :: as, b :: bs => if a = b then lexLe as bs else decide (a.toNat < b.toNat)

/-- Insert into a sorted list (stable insertion step). -/
def insertSorted (le : α → α → Bool) (x : α) : List α → List α
  | [] => [x]
  | y :: ys => if le x y then x :: y :: ys else y :: insertSorted le x ys

/-- Stable insertion sort, embedding the JavaScript `Array.prototype.sort`
contract (a sorted permutation; ES2019 sorts are stable). -/
def sortBy (le : α → α → Bool) (l : List α) : List α :=
  l.foldr (insertSorted le) []

/-- Append an element to a list unless it is already present; embeds both
`Set.prototype.add` (insertion-order set semantics) and the
`includes`-guarded pushes in the source. -/
def addUnique [DecidableEq α] (l : List α) (x : α) : List α :=
  if x ∈ l then l else l ++ [x]

/-- The short JSON escape table: escape letter paired with the character it
denotes. -/
def escMap : List (Char × Char) :=
  [('"', '"'), ('\\', '\\'), ('n', '\n'), ('r', '\r'), ('t', '\t'),
   ('b', '\x08'), ('f', '\x0c')]

/-- One JSON string-escape step of `JSON.stringify`: quote, backslash and the
named control characters get a short escape, other control characters get a
`\u00XX` escape, everything else stands for itself. -/
def escChar (c : Char) : Str :=
  match escMap.find? (fun e => e.2 = c) with
  | some e => ['\\', e.1]
  | none =>
    if c.toNat < 32 then
      ['\\', 'u', '0', '0', Nat.digitChar (c.toNat / 16), Nat.digitChar (c.toNat % 16)]
    else [c]

/-- `JSON.stringify` of a string. -/
def jsonQuote (s : Str) : Str :=
  '"' :: s.flatMap escChar ++ ['"']

/-- `JSON.stringify` of an array of strings (as used for the persisted
tag-set attribute). -/
def stringifyTags (l : List Str) : Str :=
  '[' :: List.intercalate [','] (l.map jsonQuote) ++ [']']

/-- Decode one escape sequence after a backslash (the short escapes of
`escMap` together with the JSON-legal `\/`). -/
def decodeEsc (e : Char) : Option Char :=
  if e = '/' then some '/'
  else (escMap.find? (fun x => x.1 = e)).map (fun x => x.2)

/-- Decode the body of a JSON string literal up to its closing quote,
returning the decoded content and the remaining input. -/
def parseJsonString : Str → Option (Str × Str)
  | [] => none
  | c :: rest =>
    if c = '"' then some ([], rest)
    else if c = '\\' then
      match rest with
      | [] => none
      | e :: r =>
        match decodeEsc e with
        | none => none
        | some d => (parseJsonString r).map (fun x => (d :: x.1, x.2))
    else if c.toNat < 32 then none
    else (parseJsonString rest).map (fun x => (c :: x.1, x.2))

/-- Parse the comma-separated items of a JSON string array after the opening
bracket; `fuel` bounds the recursion (one unit per item). -/
def parseJsonItems (fuel : Nat) (l : Str) : Option (List Str) :=
  match fuel with
  | 0 => none
  | fuel + 1 =>
    match l with
    | [] => none
    | c :: rest =>
      if c = '"' then
        match parseJsonString rest with
        | none => none
        | some (s, r) =>
          match r with
          | [] => none
          | d :: r2 =>
            if d = ']' then (if r2 = [] then some [s] else none)
            else if d = ',' then (parseJsonItems fuel r2).map (fun xs => s :: xs)
            else none
      else none

/-- Model of `JSON.parse` restricted to arrays of strings (the only shape the
source stores); any other input is treated as a parse failure, which the
source catches.  No inter-token whitespace is modelled: the engine only ever
parses back strings produced by `JSON.stringify`. -/
def parseTags (l : Str) : Option (List Str) :=
  match l with
  | [] => none
  | c :: rest =>
    if c = '[' then
      if rest = [']'] then some [] else parseJsonItems (rest.length + 2) rest
    else none

/-- JavaScript truthiness of an optional string value (an absent attribute or
the empty string is falsy). -/
def jsTruthy : Option Str → Bool
  | none => false
  | some s => !s.isEmpty

/-- Names of the text-range visual marker attributes used by the source:
`biketag` and `bt-color-${i}`. -/
inductive MarkName where
  | biketag : MarkName
  | btColor (i : Nat) : MarkName
deriving DecidableEq, Repr

/-- The row attribute keys used by the source (current and legacy forms). -/
inductive AttrKey where
  | btTags : AttrKey
  | dataBtTags : AttrKey
  | btFilter : AttrKey
  | dataBtFilter : AttrKey
deriving DecidableEq, Repr

/-- A mutation event: one host write performed by the engine (row attribute
write/removal or text-range marker attach/remove). -/
inductive Mut where
  | setAttr (key : AttrKey) (value : Str) : Mut
  | removeAttr (key : AttrKey) : Mut
  | addMarker (name : MarkName) (start stop : Nat) : Mut
  | removeMarker (name : MarkName) : Mut
deriving DecidableEq, Repr

/-- The engine's view of a host row: its text, the four persisted attributes
it touches (`bt-tags`, `data-bt-tags`, `bt-filter`, `data-bt-filter`; `none`
is an absent attribute) and the attached text-range markers. -/
structure RowState where
  text : Str
  tagsNew : Option Str
  tagsOld : Option Str
  filterNew : Option Str
  filterOld : Option Str
  markers : List (MarkName × Nat × Nat)
deriving DecidableEq, Repr

/-- Embeds `getRowTagsAttribute`: read `bt-tags`, falling back to the legacy
`data-bt-tags` via `??` (nullish coalescing keeps an empty string). -/
def getRowTagsAttribute (r : RowState) : Option Str :=
  r.tagsNew.or r.tagsOld

/-- Embeds `setRowTagsAttribute`: write the value under both the current and
the legacy key. -/
def setRowTagsAttribute (r : RowState) (v : Str) : RowState × List Mut :=
  ({ r with tagsNew := some v, tagsOld := some v },
   [Mut.setAttr AttrKey.btTags v, Mut.setAttr AttrKey.dataBtTags v])

/-- Embeds `removeRowTagsAttribute`: remove both keys. -/
def removeRowTagsAttribute (r : RowState) : RowState × List Mut :=
  ({ r with tagsNew := none, tagsOld := none },
   [Mut.removeAttr AttrKey.btTags, Mut.removeAttr AttrKey.dataBtTags])

/-- Embeds `setRowFilterAttribute`. -/
def setRowFilterAttribute (r : RowState) (v : Str) : RowState × List Mut :=
  ({ r with filterNew := some v, filterOld := some v },
   [Mut.setAttr AttrKey.btFilter v, Mut.setAttr AttrKey.dataBtFilter v])

/-- Embeds `removeRowFilterAttribute`. -/
def removeRowFilterAttribute (r : RowState) : RowState × List Mut :=
  ({ r with filterNew := none, filterOld := none },
   [Mut.removeAttr AttrKey.btFilter, Mut.removeAttr AttrKey.dataBtFilter])

/-- The candidate derived tag set of a row text before sorting: the union (in
`Set` insertion order) of every trailing token's ancestor chain.  This is the
`tagPaths` set computed by the token loop in `applyTagsToRow`. -/
def candidateTagPaths (tokens : List TagToken) : List Str :=
  tokens.foldl
    (fun acc tok => (addAncestors (normalizeTag tok.tag)).foldl addUnique acc) []

/-- Whether a marker survives the marker-clearing loop in `applyTagsToRow`
(which removes `biketag` and `bt-color-0` … `bt-color-7`). -/
def markerKept (m : MarkName × Nat × Nat) : Bool :=
  match m.1 with
  | MarkName.biketag => false
  | MarkName.btColor i => decide (COLOR_COUNT ≤ i)

/-- The mutation events of the marker-clearing loop. -/
def clearMarkerMuts : List Mut :=
  Mut.removeMarker MarkName.biketag ::
    (List.range COLOR_COUNT).map (fun i => Mut.removeMarker (MarkName.btColor i))

/-- The marker-attaching loop of `applyTagsToRow`: for every token, attach a
`biketag` marker and a `bt-color-${i}` marker over the token's exact span. -/
def attachMarkers (tokens : List TagToken) : List (MarkName × Nat × Nat) × List Mut :=
  tokens.foldl
    (fun acc tok =>
      let normalized := normalizeTag tok.tag
      let colorIndex := stableIndexForTag normalized COLOR_COUNT
      (acc.1 ++ [(MarkName.biketag, tok.start, tok.stop),
                 (MarkName.btColor colorIndex, tok.start, tok.stop)],
       acc.2 ++ [Mut.addMarker MarkName.biketag tok.start tok.stop,
                 Mut.addMarker (MarkName.btColor colorIndex) tok.start tok.stop]))
    ([], [])

/-- The change gate of `applyTagsToRow`: parse the row's existing persisted
tag-set attribute (tolerating absent, empty or malformed data as "no existing
set") and report whether the sorted existing set equals the sorted candidate
set element-for-element. -/
def tagsUnchanged (r : RowState) (newSet : List Str) : Bool :=
  match getRowTagsAttribute r with
  | none => false
  | some raw =>
    if jsTruthy (some raw) then
      match parseTags raw with
      | some existing => sortBy lexLe existing = newSet
      | none => false
    else false

/-- Embeds `applyTagsToRow`, the Change-Gated Row Updater.  Returns the new
row state together with every mutation event performed.  Mirrors the source:
empty candidate set → remove the (truthy) persisted attribute and return;
otherwise compare the sorted persisted set against the sorted candidate set
and return with no mutation when they are equal; else clear prior markers,
attach fresh ones and persist the new sorted set under both keys. -/
def applyTagsToRow (r : RowState) : RowState × List Mut :=
  let tokens := findTrailingTags r.text
  if tokens.isEmpty then
    if jsTruthy (getRowTagsAttribute r) then removeRowTagsAttribute r
    else (r, [])
  else
    let newSet := sortBy lexLe (candidateTagPaths tokens)
    if tagsUnchanged r newSet then (r, [])
    else
      let kept := r.markers.filter markerKept
      let attached := attachMarkers tokens
      let v := stringifyTags newSet
      ({ r with markers := kept ++ attached.1, tagsNew := some v, tagsOld := some v },
       clearMarkerMuts ++ attached.2 ++
         [Mut.setAttr AttrKey.btTags v, Mut.setAttr AttrKey.dataBtTags v])

/-- The filter predicate applied to a row's stored tag list, exactly as it
appears both in `filterByTagCommand` and in the sidebar click action:
`list.some(t => t === target || t.startsWith(target + '/'))`. -/
def tagMatches (list : List Str) (target : Str) : Bool :=
  list.any (fun t => t = target || (target ++ ['/']).isPrefixOf t)

/-- The per-row body of the filter transaction shared by `filterByTagCommand`
and the sidebar click action: set the filter attribute on a matching row,
remove it otherwise. -/
def filterRowStep (target : Str) (r : RowState) : RowState × List Mut :=
  let matched :=
    match getRowTagsAttribute r with
    | none => false
    | some raw =>
      if jsTruthy (some raw) then
        match parseTags raw with
        | some list => tagMatches list target
        | none => false
      else false
  if matched then setRowFilterAttribute r (['1'] : Str)
  else removeRowFilterAttribute r

/-- The selection kinds of the host editor that the engine inspects. -/
inductive SelKind where
  | caret (char : Nat) : SelKind
  | text (headChar : Nat) : SelKind
  | block : SelKind
deriving DecidableEq

/-- A host selection: the selected row and the selection kind. -/
structure Selection where
  row : RowState
  kind : SelKind

/-- Embeds `caretCharIndex`: the caret character for caret selections, the
head character for text selections, undefined for block selections. -/
def caretCharIndex (sel : Selection) : Option Nat :=
  match sel.kind with
  | SelKind.caret c => some c
  | SelKind.text h => some h
  | SelKind.block => none

/-- Embeds `tagFromSelection`: the normalized tag of the first trailing token
whose span contains the caret (or its end boundary, or the character just
left of the caret). -/
def tagFromSelection (sel : Selection) : Option Str :=
  let tokens := findTrailingTags sel.row.text
  if tokens.isEmpty then none
  else
    match caretCharIndex sel with
    | none => none
    | some index =>
      (tokens.find? (fun t =>
        ((decide (t.start ≤ index) && decide (index < t.stop)) || index = t.stop) ||
        (decide (0 < index) && decide (t.start ≤ index - 1) && decide (index - 1 < t.stop)))).map
        (fun t => normalizeTag t.tag)

/-- Embeds `lastTrailingTag`: the normalized text of the row's last trailing
token. -/
def lastTrailingTag (row : RowState) : Option Str :=
  ((findTrailingTags row.text).getLast?).map (fun t => normalizeTag t.tag)

/-- The engine's view of the host outline editor: the current selection, the
document rows (`outline.root.descendants`) and the editor filter string. -/
structure Editor where
  selection : Option Selection
  rows : List RowState
  filter : Str

/-- The command context for `filterByTagCommand`: an optional editor and the
optional `tag` argument passed by the sidebar. -/
structure CommandCtx where
  editor : Option Editor
  tag : Option Str

/-- The filter expression the command installs, `//@bt-filter`. -/
def filterExpr : Str := "//@bt-filter".data

/-- Embeds `filterByTagCommand`: resolve the target tag (context argument,
else tag under the caret, else last trailing tag of the selected row), and on
success mark every matching row and install the editor filter.  Returns the
command's boolean result and the resulting editor state. -/
def filterByTagCommand (ctx : CommandCtx) : Bool × Option Editor :=
  match ctx.editor with
  | none => (false, ctx.editor)
  | some editor =>
    let step2 : Option Str → Bool × Option Editor := fun target =>
      if jsTruthy target then
        match target with
        | none => (false, some editor)
        | some tgt =>
          let rows := editor.rows.map (fun r => (filterRowStep tgt r).1)
          (true, some { editor with rows := rows, filter := filterExpr })
      else (false, some editor)
    if jsTruthy ctx.tag then step2 ctx.tag
    else
      match editor.selection with
      | none => (false, some editor)
      | some selection =>
        step2 ((tagFromSelection selection).or (lastTrailingTag selection.row))

/-- Embeds `indexAllTags`: union every row's parsed `data-bt-tags` attribute
(the legacy key only) into one global insertion-ordered set. -/
def indexAllTags (rows : List RowState) : List Str :=
  rows.foldl
    (fun tags row =>
      if jsTruthy row.tagsOld then
        match row.tagsOld with
        | some raw =>
          match parseTags raw with
          | some list => list.foldl addUnique tags
          | none => tags
        | none => tags
      else tags) []

/-- JavaScript `String.prototype.lastIndexOf` for a single character:
the last index at which it occurs, or `-1`. -/
def jsLastIndexOf (l : Str) (c : Char) : Int :=
  match l.reverse.findIdx? (fun d => d = c) with
  | some j => ((l.length - 1 - j : Nat) : Int)
  | none => -1

/-- The parent path of a tag, `tag.substring(0, tag.lastIndexOf('/'))`
(used by the hierarchy builder when the last `/` sits at a positive index). -/
def parentStr (t : Str) : Str :=
  t.take (jsLastIndexOf t '/').toNat

/-- JavaScript `String.prototype.indexOf` for a single character:
the first index at which it occurs, or `-1`. -/
def jsIndexOf (l : Str) (c : Char) : Int :=
  match l.findIdx? (fun d => d = c) with
  | some j => (j : Int)
  | none => -1

/-- The comparator of `buildTagHierarchy`: ascending `split('/')` segment
count, tie-broken by string comparison (`localeCompare` modelled as
character-code order). -/
def byDepthLe (a b : Str) : Bool :=
  let da := (a.splitOn '/').length
  let db := (b.splitOn '/').length
  decide (da < db) || (da = db && lexLe a b)

/-- The hierarchy-builder state: the tags for which a node exists (`nodeMap`
keys in insertion order), the children lists (`children` arrays of the nodes,
as a finite map from tag to child tags) and the root list. -/
structure HierState where
  nodes : List Str
  childrenF : Str → List Str
  roots : List Str

/-- The initial hierarchy-builder state. -/
def hierInit : HierState := ⟨[], fun _ => [], []⟩

/-- One iteration of the loop in `buildTagHierarchy`: ensure a node for the
tag; when its path has a `/` at a positive index, ensure the parent node,
append the tag to the parent's children (once), and push the parent as a root
when the parent path has no `/` of its own; otherwise push the tag as a
root.  Node identity in the source is the `nodeMap` entry, so nodes are
identified by their tag. -/
def hierStep (s : HierState) (tag : Str) : HierState :=
  let s1 : HierState := { s with nodes := addUnique s.nodes tag }
  if 0 < jsLastIndexOf tag '/' then
    let parentTag := parentStr tag
    let s2 : HierState := { s1 with nodes := addUnique s1.nodes parentTag }
    let prev := s2.childrenF parentTag
    let s3 : HierState :=
      { s2 with childrenF := fun q =>
          if q = parentTag then (if tag ∈ prev then prev else prev ++ [tag])
          else s2.childrenF q }
    if jsIndexOf parentTag '/' = -1 ∧ parentTag ∉ s3.roots then
      { s3 with roots := s3.roots ++ [parentTag] }
    else s3
  else
    if tag ∉ s1.roots then { s1 with roots := s1.roots ++ [tag] }
    else s1

/-- Embeds `buildTagHierarchy`: sort the tag set by depth (parents first) and
fold the node/parent/root construction over it. -/
def buildTagHierarchy (tags : List Str) : HierState :=
  (sortBy byDepthLe tags).foldl hierStep hierInit

/-- A root-to-node path in the built hierarchy: starts at a member of the
root list and follows `children` membership edges. -/
inductive ReachBy (s : HierState) : List Str → Str → Prop where
  | root (r : Str) : r ∈ s.roots → ReachBy s [r] r
  | step (p : List Str) (a b : Str) :
      ReachBy s p a → b ∈ s.childrenF a → ReachBy s (p ++ [b]) b

theorem toInt32_emod (n : Int) : toInt32 n % 4294967296 = n % 4294967296 := by
  show (if n % 4294967296 < 2147483648 then n % 4294967296
        else n % 4294967296 - 4294967296) % 4294967296 = n % 4294967296
  split
  · omega
  · omega

theorem toInt32_congr {a b : Int} (h : a % 4294967296 = b % 4294967296) :
    toInt32 a = toInt32 b := by
  unfold toInt32
  rw [h]

theorem djb2Step_eq_spec (h : Int) (c : Char) :
    djb2Step h c = toInt32 (h * 33 + (c.toNat : Int)) := by
  unfold djb2Step
  apply toInt32_congr
  have h32 := toInt32_emod (h * 32)
  omega

theorem foldl_djb2_eq_spec (l : Str) (a : Int) :
    l.foldl djb2Step a = l.foldl (fun h c => toInt32 (h * 33 + (c.toNat : Int))) a := by
  induction l generalizing a with
  | nil => rfl
  | cons c cs ih => simp [List.foldl_cons, djb2Step_eq_spec, ih]

/-- C7: `stableIndexForTag` is a pure function of the tag string that always
returns an index in `[0, 8)` for palette size 8, and it agrees with the
specification's reference djb2 definition (seed 5381, `hash = hash*33 +
charCode` truncated to a signed 32-bit accumulator, folded to non-negative,
reduced modulo the palette size). -/
theorem stableIndexForTag_range_and_spec (tag : Str) :
    stableIndexForTag tag COLOR_COUNT < 8 ∧
    stableIndexForTag tag COLOR_COUNT = colorSlotSpec tag 8 := by
  constructor
  · show _ % 8 < 8
    exact Nat.mod_lt _ (by decide)
  · show _ % 8 = _ % 8
    rw [foldl_djb2_eq_spec]

/-- C5: the filter predicate shared by `filterByTagCommand` and the sidebar
click action returns true iff the target is a member of the row's stored tag
list or some member extends the target followed by `/`; a member that merely
extends the target without the separator does not match (`#project` does not
match `#projectx`). -/
theorem tagMatches_descendant_iff :
    (∀ (list : List Str) (target : Str),
      (tagMatches list target = true ↔
        target ∈ list ∨ ∃ t ∈ list, (target ++ ['/']) <+: t)) ∧
    tagMatches ["#projectx".data] "#project".data = false := by
  constructor
  · intro list target
    simp only [tagMatches, List.any_eq_true, Bool.or_eq_true, decide_eq_true_eq,
      List.isPrefixOf_iff_prefix]
    constructor
    · rintro ⟨t, ht, rfl | hp⟩
      · exact Or.inl ht
      · exact Or.inr ⟨t, ht, hp⟩
    · rintro (h | ⟨t, ht, hp⟩)
      · exact ⟨target, h, Or.inl rfl⟩
      · exact ⟨t, ht, Or.inr hp⟩
  · decide

/-- C10: `indexAllTags` reads only the legacy `data-bt-tags` attribute: a row
whose legacy attribute is absent contributes nothing to the global tag set,
wherever it sits in the document, even though `getRowTagsAttribute` (used by
the filter command) would read its current-key `bt-tags` value. -/
theorem indexAllTags_reads_legacy_only (pre post : List RowState) (r : RowState)
    (h : r.tagsOld = none) :
    indexAllTags (pre ++ r :: post) = indexAllTags (pre ++ post) ∧
    ∀ v, r.tagsNew = some v → getRowTagsAttribute r = some v := by
  constructor
  · unfold indexAllTags
    rw [List.foldl_append, List.foldl_append, List.foldl_cons]
    congr 1
    simp [h, jsTruthy]
  · intro v hv
    simp [getRowTagsAttribute, hv]

/-- Witness for C10 at a concrete one-row document whose row has only the
current-key attribute. -/
theorem indexAllTags_reads_legacy_only_witness :
    (RowState.mk "x #a".data (some "[\"#a\"]".data) none none none []).tagsOld = none ∧
    indexAllTags ([] ++ RowState.mk "x #a".data (some "[\"#a\"]".data) none none none [] :: []) =
      indexAllTags ([] ++ []) ∧
    getRowTagsAttribute (RowState.mk "x #a".data (some "[\"#a\"]".data) none none none []) =
      some "[\"#a\"]".data :=
  ⟨rfl,
   (indexAllTags_reads_legacy_only [] [] _ rfl).1,
   (indexAllTags_reads_legacy_only [] [] _ rfl).2 _ rfl⟩

/-- C9: with no `tag` argument and no resolvable target (no editor, or no
selection, or neither a tag under the caret nor a trailing tag on the
selected row), `filterByTagCommand` returns `false` and leaves the editor
(its rows and its filter) unchanged. -/
theorem filterByTagCommand_no_target_noop (ctx : CommandCtx)
    (htag : ctx.tag = none)
    (h : ctx.editor = none ∨
      ∃ ed, ctx.editor = some ed ∧
        (ed.selection = none ∨
          ∃ sel, ed.selection = some sel ∧ tagFromSelection sel = none ∧
            lastTrailingTag sel.row = none)) :
    filterByTagCommand ctx = (false, ctx.editor) := by
  unfold filterByTagCommand
  rcases h with h | ⟨ed, hed, h⟩
  · simp [h]
  · rcases h with h | ⟨sel, hsel, h1, h2⟩
    · simp [hed, htag, jsTruthy, h]
    · simp [hed, htag, jsTruthy, hsel, h1, h2]

/-- Witness for C9 with no editor at all. -/
theorem filterByTagCommand_no_target_noop_witness :
    (CommandCtx.mk none none).tag = none ∧
    filterByTagCommand (CommandCtx.mk none none) = (false, none) :=
  ⟨rfl, filterByTagCommand_no_target_noop ⟨none, none⟩ rfl (Or.inl rfl)⟩

theorem collapseFirstSlashRun_cons_ne {c : Char} (h : ¬ c = '/') (l : Str) :
    collapseFirstSlashRun (c :: l) = c :: collapseFirstSlashRun l := by
  simp [collapseFirstSlashRun, h]

theorem normalizeTag_eq (t : Str) :
    normalizeTag t =
      collapseFirstSlashRun
        (if (jsTrim t).head? = some '#' then jsTrim t else '#' :: jsTrim t) := rfl

theorem normalizeTag_head (t : Str) : ∃ rest, normalizeTag t = '#' :: rest := by
  rw [normalizeTag_eq]
  by_cases hu : (jsTrim t).head? = some '#'
  · rw [if_pos hu]
    cases hl : jsTrim t with
    | nil => rw [hl] at hu; simp at hu
    | cons c cs =>
      rw [hl] at hu
      simp only [List.head?_cons, Option.some.injEq] at hu
      subst hu
      exact ⟨collapseFirstSlashRun cs, collapseFirstSlashRun_cons_ne (by decide) cs⟩
  · rw [if_neg hu]
    exact ⟨collapseFirstSlashRun (jsTrim t), collapseFirstSlashRun_cons_ne (by decide) _⟩

theorem splitOn_ne_nil (c : Char) (l : Str) : l.splitOn c ≠ [] := by
  simp only [List.splitOn]
  exact List.splitOnP_ne_nil _ _

/-- C8: `addAncestors (normalizeTag t)` returns the normalized tag's proper
prefix paths (shallow to deep, one per proper prefix of the segment list)
followed by the normalized tag itself as the last element; a one-segment tag
expands to itself only. -/
theorem addAncestors_normalize_spec (t : Str) :
    addAncestors (normalizeTag t) =
      ((List.range ((((normalizeTag t).drop 1).splitOn '/').length - 1)).map
        (fun i => '#' ::
          List.intercalate ['/'] ((((normalizeTag t).drop 1).splitOn '/').take (i + 1)))) ++
        [normalizeTag t] ∧
    (((((normalizeTag t).drop 1).splitOn '/').length = 1) →
      addAncestors (normalizeTag t) = [normalizeTag t]) := by
  obtain ⟨rest, hn⟩ := normalizeTag_head t
  have hdrop : (normalizeTag t).drop 1 = rest := by rw [hn]; rfl
  have hne : ((normalizeTag t).drop 1).splitOn '/' ≠ [] := splitOn_ne_nil '/' _
  have hk : (((normalizeTag t).drop 1).splitOn '/').length - 1 + 1 =
      (((normalizeTag t).drop 1).splitOn '/').length :=
    Nat.succ_pred_eq_of_pos (List.length_pos.mpr hne)
  have hlast : '#' :: List.intercalate ['/'] (((normalizeTag t).drop 1).splitOn '/') =
      normalizeTag t := by
    rw [hdrop, List.intercalate_splitOn rest '/', ← hn]
  have hmain : addAncestors (normalizeTag t) =
      ((List.range ((((normalizeTag t).drop 1).splitOn '/').length - 1)).map
        (fun i => '#' ::
          List.intercalate ['/'] ((((normalizeTag t).drop 1).splitOn '/').take (i + 1)))) ++
        [normalizeTag t] := by
    show (List.range (((normalizeTag t).drop 1).splitOn '/').length).map _ = _
    rw [← hk, List.range_succ, List.map_append, List.map_singleton, hk]
    congr 1
    rw [List.take_length, hlast]
  refine ⟨hmain, fun h1 => ?_⟩
  rw [hmain, h1]
  simp

/-- Witness for C8 at the one-segment tag `"#a"`, which expands to itself
only. -/
theorem addAncestors_normalize_spec_witness :
    (((normalizeTag "#a".data).drop 1).splitOn '/').length = 1 ∧
    addAncestors (normalizeTag "#a".data) = [normalizeTag "#a".data] :=
  ⟨by decide, (addAncestors_normalize_spec "#a".data).2 (by decide)⟩

theorem hasDoubleSlash_cons_ne {c : Char} (h : ¬ c = '/') (l : Str) :
    hasDoubleSlash (c :: l) = hasDoubleSlash l := by
  cases l with
  | nil => rfl
  | cons b r => simp [hasDoubleSlash, h]

theorem hasDoubleSlash_append_left {a b : Str}
    (h : hasDoubleSlash (a ++ b) = false) : hasDoubleSlash a = false := by
  induction a with
  | nil => rfl
  | cons x xs ih =>
    cases xs with
    | nil => rfl
    | cons y ys =>
      simp only [List.cons_append] at h
      simp only [hasDoubleSlash, Bool.or_eq_false_iff] at h ⊢
      refine ⟨h.1, ?_⟩
      have := ih (by simpa [List.cons_append] using h.2)
      simpa [hasDoubleSlash] using this

theorem afterFirstSlashRun_cons_ne {c : Char} (h : ¬ c = '/') (l : Str) :
    afterFirstSlashRun (c :: l) = afterFirstSlashRun l := by
  unfold afterFirstSlashRun
  rw [List.dropWhile_cons_of_pos (by simp [h])]

theorem afterFirstSlashRun_slash (rest : Str) :
    afterFirstSlashRun ('/' :: rest) = rest.dropWhile (fun d => d = '/') := by
  unfold afterFirstSlashRun
  rw [List.dropWhile_cons_of_neg (by simp), List.dropWhile_cons_of_pos (by simp)]

theorem collapseFirst_no_doubleslash : ∀ {l : Str},
    hasDoubleSlash (afterFirstSlashRun l) = false →
    hasDoubleSlash (collapseFirstSlashRun l) = false := by
  intro l
  induction l with
  | nil => intro _; rfl
  | cons c rest ih =>
    intro h
    by_cases hc : c = '/'
    · subst hc
      rw [afterFirstSlashRun_slash] at h
      have hcf : collapseFirstSlashRun ('/' :: rest) =
          '/' :: rest.dropWhile (fun d => d = '/') := by
        simp [collapseFirstSlashRun]
      rw [hcf]
      cases hD : rest.dropWhile (fun d => d = '/') with
      | nil => rfl
      | cons d ds =>
        have hd : decide (d = '/') = false := by
          have hh := List.head?_dropWhile_not (fun d => decide (d = '/')) rest
          rw [hD] at hh
          simpa using hh
        rw [hD] at h
        simp only [hasDoubleSlash, Bool.or_eq_false_iff]
        exact ⟨by simp [hd], h⟩
    · rw [afterFirstSlashRun_cons_ne hc] at h
      rw [collapseFirstSlashRun_cons_ne hc, hasDoubleSlash_cons_ne hc]
      exact ih h

theorem afterFirstSlashRun_dropWhile_ws (l : Str) :
    afterFirstSlashRun (l.dropWhile isJsWs) = afterFirstSlashRun l := by
  induction l with
  | nil => rfl
  | cons c rest ih =>
    by_cases hw : isJsWs c = true
    · have hc : ¬ c = '/' := by
        intro e
        subst e
        exact absurd hw (by decide)
      rw [List.dropWhile_cons_of_pos hw, ih, afterFirstSlashRun_cons_ne hc]
    · rw [List.dropWhile_cons_of_neg hw]

theorem hasDoubleSlash_afterFirstSlashRun_append {l w : Str}
    (h : hasDoubleSlash (afterFirstSlashRun (l ++ w)) = false) :
    hasDoubleSlash (afterFirstSlashRun l) = false := by
  by_cases hs : '/' ∈ l
  · have hD_ne : ¬ (l.dropWhile (fun c => ¬ c = '/')).isEmpty = true := by
      rw [List.isEmpty_iff]
      intro hnil
      have := List.dropWhile_eq_nil_iff.mp hnil '/' hs
      simp at this
    have hDapp : (l ++ w).dropWhile (fun c => ¬ c = '/') =
        l.dropWhile (fun c => ¬ c = '/') ++ w := by
      rw [List.dropWhile_append, if_neg hD_ne]
    by_cases hE : ((l.dropWhile (fun c => ¬ c = '/')).dropWhile
        (fun c => c = '/')).isEmpty = true
    · rw [List.isEmpty_iff] at hE
      unfold afterFirstSlashRun
      rw [hE]
      rfl
    · have : afterFirstSlashRun (l ++ w) = afterFirstSlashRun l ++ w := by
        unfold afterFirstSlashRun
        rw [hDapp, List.dropWhile_append, if_neg hE]
      rw [this] at h
      exact hasDoubleSlash_append_left h
  · have hnil : l.dropWhile (fun c => ¬ c = '/') = [] := by
      rw [List.dropWhile_eq_nil_iff]
      intro x hx
      simp only [decide_eq_true_eq]
      intro e
      exact hs (e ▸ hx)
    unfold afterFirstSlashRun
    rw [hnil]
    rfl

theorem jsTrim_afterFirstSlashRun {t : Str}
    (h : hasDoubleSlash (afterFirstSlashRun t) = false) :
    hasDoubleSlash (afterFirstSlashRun (jsTrim t)) = false := by
  unfold jsTrim
  have h1 : hasDoubleSlash (afterFirstSlashRun (t.dropWhile isJsWs)) = false := by
    rw [afterFirstSlashRun_dropWhile_ws]
    exact h
  have hsplit : t.dropWhile isJsWs =
      (t.dropWhile isJsWs).rdropWhile isJsWs ++
        (((t.dropWhile isJsWs).reverse.takeWhile isJsWs).reverse) := by
    rw [List.rdropWhile, ← List.reverse_append, List.takeWhile_append_dropWhile,
      List.reverse_reverse]
  apply hasDoubleSlash_afterFirstSlashRun_append
    (w := ((t.dropWhile isJsWs).reverse.takeWhile isJsWs).reverse)
  rw [← hsplit]
  exact h1

/-- C1 counterexample: on the raw tag `"#a//b//c"` the source's
`normalizeTag` collapses only the first run of slashes, so the result
`"#a/b//c"` still contains `"//"`, contradicting the claim that every run is
collapsed. -/
theorem normalizeTag_doubleslash_counterexample :
    normalizeTag "#a//b//c".data = "#a/b//c".data ∧
    hasDoubleSlash (normalizeTag "#a//b//c".data) = true := by
  constructor
  · decide
  · decide

/-- C1 amended: `normalizeTag` collapses the first (leftmost) run of
consecutive `/` characters; the result is guaranteed free of `"//"` whenever
every slash run after the first one in the input already has length one
(equivalently, the input has no `"//"` after its first slash run) — in
particular for every input with at most one slash run. -/
theorem normalizeTag_amended_no_doubleslash (t : Str)
    (h : hasDoubleSlash (afterFirstSlashRun t) = false) :
    hasDoubleSlash (normalizeTag t) = false := by
  rw [normalizeTag_eq]
  apply collapseFirst_no_doubleslash
  have h2 := jsTrim_afterFirstSlashRun h
  by_cases hu : (jsTrim t).head? = some '#'
  · rw [if_pos hu]
    exact h2
  · rw [if_neg hu, afterFirstSlashRun_cons_ne (by decide)]
    exact h2

/-- Witness for the amended C1 at the concrete input `"#a//b"` (a single
slash run, which the first-run collapse does fix). -/
theorem normalizeTag_amended_witness :
    hasDoubleSlash (afterFirstSlashRun "#a//b".data) = false ∧
    hasDoubleSlash (normalizeTag "#a//b".data) = false :=
  ⟨by decide, normalizeTag_amended_no_doubleslash _ (by decide)⟩

/-- C3 counterexample: a row with no trailing tags that carries both a
persisted tag-set attribute and a `biketag` visual marker.  `applyTagsToRow`
removes the attribute (under both keys) but leaves the visual marker
attached and performs no marker mutation, contradicting the claim that the
visual tag markers are also removed. -/
theorem applyTagsToRow_empty_markers_counterexample :
    findTrailingTags "hello".data = [] ∧
    (applyTagsToRow
      (RowState.mk "hello".data (some "x".data) none none none
        [(MarkName.biketag, 0, 2)])).1.tagsNew = none ∧
    (applyTagsToRow
      (RowState.mk "hello".data (some "x".data) none none none
        [(MarkName.biketag, 0, 2)])).1.tagsOld = none ∧
    (applyTagsToRow
      (RowState.mk "hello".data (some "x".data) none none none
        [(MarkName.biketag, 0, 2)])).1.markers = [(MarkName.biketag, 0, 2)] ∧
    (applyTagsToRow
      (RowState.mk "hello".data (some "x".data) none none none
        [(MarkName.biketag, 0, 2)])).2 =
      [Mut.removeAttr AttrKey.btTags, Mut.removeAttr AttrKey.dataBtTags] := by
  refine ⟨by decide, by decide, by decide, by decide, by decide⟩

/-- C3 amended: on an empty candidate set, if the row carries a truthy
persisted tag-set attribute the updater removes the attribute (both keys)
and performs exactly those two attribute removals — the visual tag markers
are left untouched; if the attribute is absent (or empty), the updater
performs no mutation at all. -/
theorem applyTagsToRow_empty_amended (r : RowState)
    (h : findTrailingTags r.text = []) :
    (jsTruthy (getRowTagsAttribute r) = true →
      applyTagsToRow r =
        ({ r with tagsNew := none, tagsOld := none },
         [Mut.removeAttr AttrKey.btTags, Mut.removeAttr AttrKey.dataBtTags])) ∧
    (jsTruthy (getRowTagsAttribute r) = false →
      applyTagsToRow r = (r, [])) := by
  constructor
  · intro ht
    unfold applyTagsToRow
    simp [h, ht, removeRowTagsAttribute]
  · intro ht
    unfold applyTagsToRow
    simp [h, ht]

/-- Witness for the amended C3 on concrete rows with and without a persisted
attribute. -/
theorem applyTagsToRow_empty_amended_witness :
    findTrailingTags "no tags here".data = [] ∧
    applyTagsToRow
        (RowState.mk "no tags here".data (some "[\"#z\"]".data) none none none
          [(MarkName.btColor 3, 1, 2)]) =
      (RowState.mk "no tags here".data none none none none
          [(MarkName.btColor 3, 1, 2)],
       [Mut.removeAttr AttrKey.btTags, Mut.removeAttr AttrKey.dataBtTags]) ∧
    applyTagsToRow (RowState.mk "no tags here".data none none none none []) =
      (RowState.mk "no tags here".data none none none none [], []) :=
  ⟨by decide,
   (applyTagsToRow_empty_amended _ (by decide)).1 (by decide),
   (applyTagsToRow_empty_amended _ (by decide)).2 (by decide)⟩

/-- Correctness property of a token's span against the row text `s`: the
span length equals the tag text's length, and either the span covers the tag
exactly (its first character is the tag's `#`) or the span is shifted one
position left (its first character is the whitespace separator the regex
match consumed, and the tag itself occupies `[start+1, stop+1)`). -/
def tokenSpanOk (s : Str) (tok : TagToken) : Prop :=
  tok.stop = tok.start + tok.tag.length ∧
  ((s[tok.start]? = some '#' ∧ (s.drop tok.start).take tok.tag.length = tok.tag) ∨
   (∃ c, s[tok.start]? = some c ∧ isJsWs c = true ∧
     (s.drop (tok.start + 1)).take tok.tag.length = tok.tag))

theorem tagShaped_head {l : Str} (h : tagShaped l = true) : l[0]? = some '#' := by
  cases l with
  | nil => simp [tagShaped] at h
  | cons c rest =>
    simp only [tagShaped, Bool.and_eq_true, decide_eq_true_eq] at h
    rw [h.1]
    simp

theorem findTagStart_some {tail : Str} {p : Nat} (h : findTagStart tail = some p) :
    p < tail.length ∧ tagShaped (tail.drop p) = true ∧
    (p = 0 ∨ ∃ c, tail[p - 1]? = some c ∧ isJsWs c = true) := by
  unfold findTagStart at h
  have hv := List.find?_some h
  have hm := List.mem_of_find?_eq_some h
  rw [List.mem_range] at hm
  unfold validTagStart at hv
  rw [Bool.and_eq_true] at hv
  obtain ⟨h1, h2⟩ := hv
  refine ⟨hm, h1, ?_⟩
  rw [Bool.or_eq_true] at h2
  rcases h2 with h2 | h2
  · exact Or.inl (by simpa using h2)
  · right
    cases hc : tail[p - 1]? with
    | none => rw [hc] at h2; simp at h2
    | some c => rw [hc] at h2; exact ⟨c, rfl, h2⟩

theorem tokenSpanOk_append {l ext : Str} {tok : TagToken}
    (h : tokenSpanOk l tok) : tokenSpanOk (l ++ ext) tok := by
  obtain ⟨hlen, hcase⟩ := h
  refine ⟨hlen, ?_⟩
  rcases hcase with ⟨hget, hslice⟩ | ⟨c, hget, hws, hslice⟩
  · left
    have hn : tok.start < l.length := (List.getElem?_eq_some_iff.mp hget).1
    have hlen2 : tok.tag.length ≤ (l.drop tok.start).length := by
      have := congrArg List.length hslice
      rw [List.length_take] at this
      omega
    constructor
    · rw [List.getElem?_append_left hn]
      exact hget
    · rw [List.drop_append_of_le_length (Nat.le_of_lt hn),
        List.take_append_of_le_length hlen2]
      exact hslice
  · right
    have hn : tok.start < l.length := (List.getElem?_eq_some_iff.mp hget).1
    have hlen2 : tok.tag.length ≤ (l.drop (tok.start + 1)).length := by
      have := congrArg List.length hslice
      rw [List.length_take] at this
      omega
    refine ⟨c, ?_, hws, ?_⟩
    · rw [List.getElem?_append_left hn]
      exact hget
    · rw [List.drop_append_of_le_length hn,
        List.take_append_of_le_length hlen2]
      exact hslice

theorem tokenSpanOk_of_prefix {l₁ l₂ : Str} {tok : TagToken}
    (hp : l₁ <+: l₂) (h : tokenSpanOk l₁ tok) : tokenSpanOk l₂ tok := by
  obtain ⟨ext, rfl⟩ := hp
  exact tokenSpanOk_append h

theorem tokenSpanOk_mkToken (tail : Str) (p : Nat)
    (hshape : tagShaped (tail.drop p) = true)
    (hprev : p = 0 ∨ ∃ c, tail[p - 1]? = some c ∧ isJsWs c = true) :
    tokenSpanOk tail (mkToken tail p) := by
  unfold mkToken tokStartOf matchIdx
  by_cases hp0 : p = 0
  · subst hp0
    simp only [if_pos rfl, Nat.lt_irrefl, decide_eq_true_eq, decide_eq_false_iff_not,
      Bool.false_and, Bool.and_eq_true, false_and, if_neg, decide_False]
    refine ⟨rfl, Or.inl ⟨?_, by simp⟩⟩
    have h0 := tagShaped_head hshape
    rw [List.getElem?_drop] at h0
    simpa using h0
  · rw [if_neg hp0]
    have hpp : p - 1 + 1 = p := Nat.succ_pred_eq_of_pos (Nat.pos_of_ne_zero hp0)
    rcases hprev with h | ⟨c, hc, hws⟩
    · exact absurd h hp0
    by_cases hls : (decide (0 < p - 1) && decide (tail[p - 1]? = some ' ')) = true
    · rw [if_pos hls, hpp]
      refine ⟨rfl, Or.inl ⟨?_, by simp⟩⟩
      have h0 := tagShaped_head hshape
      rw [List.getElem?_drop] at h0
      simpa using h0
    · rw [if_neg hls]
      refine ⟨rfl, Or.inr ⟨c, hc, hws, ?_⟩⟩
      rw [hpp]
      simp

theorem scanTrailing_spanOk (fuel : Nat) :
    ∀ (tail : Str) (tok : TagToken), tok ∈ scanTrailing fuel tail →
      tokenSpanOk tail tok := by
  induction fuel with
  | zero =>
    intro tail tok h
    simp [scanTrailing] at h
  | succ fuel ih =>
    intro tail tok h
    rw [scanTrailing] at h
    cases hfind : findTagStart tail with
    | none =>
      rw [hfind] at h
      simp at h
    | some p =>
      rw [hfind] at h
      rw [List.mem_append, List.mem_singleton] at h
      obtain ⟨hp, hshape, hprev⟩ := findTagStart_some hfind
      rcases h with h | rfl
      · have hpre : ((tail.take (matchIdx p)).rdropWhile isJsWs) <+: tail :=
          List.IsPrefix.trans ( List.rdropWhile_prefix _ _) ( List.take_prefix _ _)
        exact tokenSpanOk_of_prefix hpre (ih _ _ h)
      · exact tokenSpanOk_mkToken tail p hshape hprev

/-- C4 amended: every token of `findTrailingTags` has `stop = start +
tag.length`, and its span covers the tag's own characters exactly (with the
character at `start` being the tag's `#`) except when the consumed
whitespace separator is not a plain space at a positive index, in which case
`start` points at that whitespace character and the tag occupies
`[start+1, stop+1)` instead. -/
theorem findTrailingTags_span_amended (s : Str) :
    ∀ tok ∈ findTrailingTags s, tokenSpanOk s tok := by
  intro tok h
  have h1 := scanTrailing_spanOk _ _ _ h
  exact tokenSpanOk_of_prefix ( List.rdropWhile_prefix _ _) h1

/-- C4 counterexample: on the row text `" #b"` the single token's recorded
span is `[0, 2)`, whose first character is the consumed space, not the tag's
`#` — the span is shifted one position left of the tag's characters. -/
theorem findTrailingTags_span_counterexample :
    findTrailingTags " #b".data = [TagToken.mk "#b".data 0 2] ∧
    " #b".data[0]? = some ' ' ∧
    ¬ " #b".data[0]? = some '#' := by
  refine ⟨by decide, by decide, by decide⟩

/-- Witness for the amended C4 at the row `"a #b"`, whose token's span is
exact. -/
theorem findTrailingTags_span_amended_witness :
    TagToken.mk "#b".data 2 4 ∈ findTrailingTags "a #b".data ∧
    tokenSpanOk "a #b".data (TagToken.mk "#b".data 2 4) :=
  ⟨by decide, findTrailingTags_span_amended "a #b".data _ (by decide)⟩

theorem char_eq_of_toNat_eq {a b : Char} (h : a.toNat = b.toNat) : a = b :=
  Char.eq_of_val_eq (UInt32.toNat.inj h)

theorem lexLe_total (a : Str) : ∀ b, lexLe a b = true ∨ lexLe b a = true := by
  induction a with
  | nil => intro b; left; rfl
  | cons x xs ih =>
    intro b
    cases b with
    | nil => right; rfl
    | cons y ys =>
      by_cases hxy : x = y
      · subst hxy
        rcases ih ys with h | h
        · left; simp [lexLe, h]
        · right; simp [lexLe, h]
      · rcases Nat.lt_or_ge x.toNat y.toNat with h | h
        · left; simp [lexLe, hxy, h]
        · have hyx : y.toNat < x.toNat := by
            rcases Nat.lt_or_ge y.toNat x.toNat with h2 | h2
            · exact h2
            · exact absurd (char_eq_of_toNat_eq (Nat.le_antisymm h2 h)) hxy
          right
          have hyx2 : ¬ y = x := fun e => hxy e.symm
          simp [lexLe, hyx2, hyx]

theorem insertSorted_chain {le : α → α → Bool}
    (htot : ∀ a b, le a b = true ∨ le b a = true) (x : α) :
    ∀ {l : List α}, List.Chain' (fun a b => le a b = true) l →
      List.Chain' (fun a b => le a b = true) (insertSorted le x l) := by
  intro l
  induction l with
  | nil => intro _; simp [insertSorted]
  | cons y ys ih =>
    intro hl
    show List.Chain' _ (if le x y then x :: y :: ys else y :: insertSorted le x ys)
    by_cases hxy : le x y = true
    · rw [if_pos hxy]
      exact List.chain'_cons.mpr ⟨hxy, hl⟩
    · rw [if_neg hxy]
      have hyx : le y x = true := (htot x y).resolve_left hxy
      have htail := ih (List.Chain'.tail hl)
      rw [List.chain'_cons']
      refine ⟨?_, htail⟩
      intro h hh
      cases ys with
      | nil =>
        simp [insertSorted] at hh
        subst hh
        exact hyx
      | cons z zs =>
        by_cases hxz : le x z = true
        · have he : insertSorted le x (z :: zs) = x :: z :: zs := by
            simp [insertSorted, hxz]
          rw [he] at hh
          simp at hh
          subst hh
          exact hyx
        · have he : insertSorted le x (z :: zs) = z :: insertSorted le x zs := by
            simp [insertSorted, hxz]
          rw [he] at hh
          simp at hh
          subst hh
          exact (List.chain'_cons.mp hl).1

theorem sortBy_chain {le : α → α → Bool}
    (htot : ∀ a b, le a b = true ∨ le b a = true) (l : List α) :
    List.Chain' (fun a b => le a b = true) (sortBy le l) := by
  induction l with
  | nil => simp [sortBy]
  | cons x xs ih => exact insertSorted_chain htot x ih

theorem sortBy_of_chain {le : α → α → Bool} :
    ∀ {l : List α}, List.Chain' (fun a b => le a b = true) l → sortBy le l = l := by
  intro l
  induction l with
  | nil => intro _; rfl
  | cons x xs ih =>
    intro hl
    show insertSorted le x (sortBy le xs) = x :: xs
    rw [ih (List.Chain'.tail hl)]
    cases xs with
    | nil => rfl
    | cons y ys =>
      have hxy : le x y = true := (List.chain'_cons.mp hl).1
      simp [insertSorted, hxy]

theorem sortBy_idem {le : α → α → Bool}
    (htot : ∀ a b, le a b = true ∨ le b a = true) (l : List α) :
    sortBy le (sortBy le l) = sortBy le l :=
  sortBy_of_chain (sortBy_chain htot l)

theorem mem_insertSorted {le : α → α → Bool} {x a : α} :
    ∀ {l : List α}, (a ∈ insertSorted le x l ↔ a = x ∨ a ∈ l) := by
  intro l
  induction l with
  | nil => simp [insertSorted]
  | cons y ys ih =>
    show a ∈ (if le x y then x :: y :: ys else y :: insertSorted le x ys) ↔ _
    by_cases hxy : le x y = true
    · rw [if_pos hxy]
      simp
    · rw [if_neg hxy]
      simp [ih]
      tauto

theorem mem_sortBy {le : α → α → Bool} {a : α} :
    ∀ {l : List α}, (a ∈ sortBy le l ↔ a ∈ l) := by
  intro l
  induction l with
  | nil => simp [sortBy]
  | cons x xs ih =>
    show a ∈ insertSorted le x (sortBy le xs) ↔ _
    rw [mem_insertSorted]
    simp [ih]

theorem mem_addUnique [DecidableEq α] {l : List α} {x a : α} :
    a ∈ addUnique l x ↔ a ∈ l ∨ a = x := by
  unfold addUnique
  by_cases hx : x ∈ l
  · rw [if_pos hx]
    constructor
    · exact Or.inl
    · rintro (h | rfl)
      · exact h
      · exact hx
  · rw [if_neg hx]
    simp

theorem mem_foldl_addUnique [DecidableEq α] {a : α} :
    ∀ (l : List α) (acc : List α),
      (a ∈ l.foldl addUnique acc ↔ a ∈ acc ∨ a ∈ l) := by
  intro l
  induction l with
  | nil => simp
  | cons x xs ih =>
    intro acc
    rw [List.foldl_cons, ih, mem_addUnique]
    simp
    tauto

theorem mem_candidateTagPaths {a : Str} :
    ∀ (toks : List TagToken) (acc : List Str),
      (a ∈ toks.foldl
        (fun acc tok => (addAncestors (normalizeTag tok.tag)).foldl addUnique acc) acc ↔
      a ∈ acc ∨ ∃ tok ∈ toks, a ∈ addAncestors (normalizeTag tok.tag)) := by
  intro toks
  induction toks with
  | nil => simp
  | cons t ts ih =>
    intro acc
    rw [List.foldl_cons, ih, mem_foldl_addUnique]
    simp
    tauto

theorem addAncestors_ne_nil (full : Str) : addAncestors full ≠ [] := by
  unfold addAncestors
  intro h
  rw [List.map_eq_nil_iff, List.range_eq_nil, List.length_eq_zero] at h
  exact splitOn_ne_nil '/' _ h

/-- A character needing no JSON escaping: not a quote, not a backslash, not a
control character. -/
def plainChar (c : Char) : Prop :=
  ¬ c = '"' ∧ ¬ c = '\\' ∧ 32 ≤ c.toNat

theorem isTagChar_plain {c : Char} (h : isTagChar c = true) : plainChar c := by
  unfold isTagChar isWordChar at h
  simp only [Bool.or_eq_true, Bool.and_eq_true, decide_eq_true_eq] at h
  have hb : (97 ≤ c.toNat ∧ c.toNat ≤ 122) ∨ (65 ≤ c.toNat ∧ c.toNat ≤ 90) ∨
      (48 ≤ c.toNat ∧ c.toNat ≤ 57) ∨ c.toNat = 95 ∨ c.toNat = 45 := by
    rcases h with (((⟨h1, h2⟩ | ⟨h1, h2⟩) | ⟨h1, h2⟩) | h1) | h1
    · exact Or.inl ⟨Char.le_def.mp h1, Char.le_def.mp h2⟩
    · exact Or.inr (Or.inl ⟨Char.le_def.mp h1, Char.le_def.mp h2⟩)
    · exact Or.inr (Or.inr (Or.inl ⟨Char.le_def.mp h1, Char.le_def.mp h2⟩))
    · subst h1; exact Or.inr (Or.inr (Or.inr (Or.inl rfl)))
    · subst h1; exact Or.inr (Or.inr (Or.inr (Or.inr rfl)))
  refine ⟨?_, ?_, ?_⟩
  · rintro rfl
    revert hb
    decide
  · rintro rfl
    revert hb
    decide
  · omega

theorem mem_intercalate_single {sep c : Char} :
    ∀ {L : List Str}, c ∈ List.intercalate [sep] L →
      (∃ p ∈ L, c ∈ p) ∨ c = sep := by
  intro L
  induction L with
  | nil => intro h; simp [List.intercalate] at h
  | cons a t ih =>
    intro h
    cases t with
    | nil =>
      simp [List.intercalate] at h
      exact Or.inl ⟨a, by simp, h⟩
    | cons b t2 =>
      have he : List.intercalate [sep] (a :: b :: t2) =
          a ++ [sep] ++ List.intercalate [sep] (b :: t2) := by
        simp [List.intercalate, List.intersperse]
      rw [he] at h
      simp only [List.mem_append, List.mem_singleton] at h
      rcases h with (h | rfl) | h
      · exact Or.inl ⟨a, by simp, h⟩
      · exact Or.inr rfl
      · rcases ih h with ⟨p, hp, hc⟩ | h
        · exact Or.inl ⟨p, by simp [hp], hc⟩
        · exact Or.inr h

theorem mem_intercalate_of_mem {sep c : Char} {p : Str} :
    ∀ {L : List Str}, p ∈ L → c ∈ p → c ∈ List.intercalate [sep] L := by
  intro L
  induction L with
  | nil => intro h; simp at h
  | cons a t ih =>
    intro hp hc
    cases t with
    | nil =>
      simp at hp
      subst hp
      simpa [List.intercalate] using hc
    | cons b t2 =>
      have he : List.intercalate [sep] (a :: b :: t2) =
          a ++ [sep] ++ List.intercalate [sep] (b :: t2) := by
        simp [List.intercalate, List.intersperse]
      rw [he]
      simp only [List.mem_append]
      rcases List.mem_cons.mp hp with rfl | hp2
      · exact Or.inl (Or.inl hc)
      · exact Or.inr (ih hp2 hc)

theorem tagShaped_chars_plain {l : Str} (h : tagShaped l = true) :
    ∀ c ∈ l, plainChar c := by
  cases l with
  | nil => simp [tagShaped] at h
  | cons d rest =>
    simp only [tagShaped, Bool.and_eq_true, decide_eq_true_eq] at h
    obtain ⟨rfl, hall⟩ := h
    intro c hc
    rcases List.mem_cons.mp hc with rfl | hc2
    · exact ⟨by decide, by decide, by decide⟩
    · have hc3 : c ∈ List.intercalate ['/'] (rest.splitOn '/') := by
        rw [List.intercalate_splitOn rest '/']
        exact hc2
      rcases mem_intercalate_single hc3 with ⟨p, hp, hcp⟩ | rfl
      · rw [List.all_eq_true] at hall
        have := hall p hp
        rw [Bool.and_eq_true, List.all_eq_true] at this
        exact isTagChar_plain (this.2 c hcp)
      · exact ⟨by decide, by decide, by decide⟩

theorem mem_collapseFirstSlashRun {c : Char} :
    ∀ {l : Str}, c ∈ collapseFirstSlashRun l → c ∈ l ∨ c = '/' := by
  intro l
  induction l with
  | nil => intro h; simp [collapseFirstSlashRun] at h
  | cons d rest ih =>
    intro h
    by_cases hd : d = '/'
    · subst hd
      simp only [collapseFirstSlashRun, if_pos rfl] at h
      rcases List.mem_cons.mp h with rfl | h2
      · exact Or.inr rfl
      · have := (List.dropWhile_sublist (fun d => decide (d = '/'))).subset h2
        exact Or.inl (List.mem_cons_of_mem _ this)
    · rw [collapseFirstSlashRun_cons_ne hd] at h
      rcases List.mem_cons.mp h with rfl | h2
      · exact Or.inl (List.mem_cons_self _ _)
      · rcases ih h2 with h3 | h3
        · exact Or.inl (List.mem_cons_of_mem _ h3)
        · exact Or.inr h3

theorem normalizeTag_chars_plain {g : Str} (hg : ∀ c ∈ g, plainChar c) :
    ∀ c ∈ normalizeTag g, plainChar c := by
  intro c hc
  rw [normalizeTag_eq] at hc
  have htrim : ∀ c ∈ jsTrim g, plainChar c := by
    intro c hc
    apply hg
    unfold jsTrim at hc
    have h1 := ( List.rdropWhile_prefix isJsWs (g.dropWhile isJsWs)).sublist.subset hc
    exact (List.dropWhile_sublist isJsWs).subset h1
  rcases mem_collapseFirstSlashRun hc with h2 | rfl
  · by_cases hu : (jsTrim g).head? = some '#'
    · rw [if_pos hu] at h2
      exact htrim c h2
    · rw [if_neg hu] at h2
      rcases List.mem_cons.mp h2 with rfl | h3
      · exact ⟨by decide, by decide, by decide⟩
      · exact htrim c h3
  · exact ⟨by decide, by decide, by decide⟩

theorem addAncestors_chars_plain {full : Str} (hf : ∀ c ∈ full, plainChar c) :
    ∀ s ∈ addAncestors full, ∀ c ∈ s, plainChar c := by
  intro s hs c hc
  unfold addAncestors at hs
  simp only [List.mem_map, List.mem_range] at hs
  obtain ⟨i, _, rfl⟩ := hs
  rcases List.mem_cons.mp hc with rfl | hc2
  · exact ⟨by decide, by decide, by decide⟩
  · rcases mem_intercalate_single hc2 with ⟨p, hp, hcp⟩ | rfl
    · have hp2 : p ∈ (full.drop 1).splitOn '/' := List.take_subset _ _ hp
      have hc3 : c ∈ List.intercalate ['/'] ((full.drop 1).splitOn '/') :=
        mem_intercalate_of_mem hp2 hcp
      rw [List.intercalate_splitOn _ '/'] at hc3
      exact hf c (List.drop_subset _ _ hc3)
    · exact ⟨by decide, by decide, by decide⟩

theorem scanTrailing_tagShaped (fuel : Nat) :
    ∀ (tail : Str) (tok : TagToken), tok ∈ scanTrailing fuel tail →
      tagShaped tok.tag = true := by
  induction fuel with
  | zero =>
    intro tail tok h
    simp [scanTrailing] at h
  | succ fuel ih =>
    intro tail tok h
    rw [scanTrailing] at h
    cases hfind : findTagStart tail with
    | none =>
      rw [hfind] at h
      simp at h
    | some p =>
      rw [hfind] at h
      rw [List.mem_append, List.mem_singleton] at h
      obtain ⟨_, hshape, _⟩ := findTagStart_some hfind
      rcases h with h | rfl
      · exact ih _ _ h
      · exact hshape

theorem findTrailingTags_tagShaped {s : Str} {tok : TagToken}
    (h : tok ∈ findTrailingTags s) : tagShaped tok.tag = true :=
  scanTrailing_tagShaped _ _ _ h

theorem escChar_plain {c : Char} (h : plainChar c) : escChar c = [c] := by
  obtain ⟨h1, h2, h3⟩ := h
  unfold escChar
  have hfind : escMap.find? (fun e => e.2 = c) = none := by
    rw [List.find?_eq_none]
    intro p hp
    simp only [escMap, List.mem_cons, List.not_mem_nil, or_false] at hp
    rcases hp with rfl | rfl | rfl | rfl | rfl | rfl | rfl
    · exact by simpa using fun e => h1 e.symm
    · exact by simpa using fun e => h2 e.symm
    · exact by simpa using fun e => absurd h3 (by rw [← e]; decide)
    · exact by simpa using fun e => absurd h3 (by rw [← e]; decide)
    · exact by simpa using fun e => absurd h3 (by rw [← e]; decide)
    · exact by simpa using fun e => absurd h3 (by rw [← e]; decide)
    · exact by simpa using fun e => absurd h3 (by rw [← e]; decide)
  rw [hfind]
  rw [if_neg (by omega)]

theorem flatMap_escChar_plain {s : Str} (h : ∀ c ∈ s, plainChar c) :
    s.flatMap escChar = s := by
  induction s with
  | nil => rfl
  | cons c cs ih =>
    rw [List.flatMap_cons, escChar_plain (h c (List.mem_cons_self _ _)),
      ih (fun d hd => h d (List.mem_cons_of_mem _ hd))]
    rfl

theorem parseJsonString_plain {s : Str} (h : ∀ c ∈ s, plainChar c) (rest : Str) :
    parseJsonString (s ++ '"' :: rest) = some (s, rest) := by
  induction s with
  | nil =>
    show parseJsonString ('"' :: rest) = some ([], rest)
    unfold parseJsonString
    rw [if_pos rfl]
  | cons c cs ih =>
    obtain ⟨h1, h2, h3⟩ := h c (List.mem_cons_self _ _)
    show parseJsonString (c :: (cs ++ '"' :: rest)) = some (c :: cs, rest)
    unfold parseJsonString
    rw [if_neg h1, if_neg h2, if_neg (by omega),
      ih (fun d hd => h d (List.mem_cons_of_mem _ hd))]
    rfl

theorem intercalate_cons₂ (sep x y : Str) (t : List Str) :
    List.intercalate sep (x :: y :: t) = x ++ sep ++ List.intercalate sep (y :: t) := by
  simp [List.intercalate, List.intersperse]

theorem intercalate_singleton (sep x : Str) :
    List.intercalate sep [x] = x := by
  simp [List.intercalate]

theorem parseJsonItems_cons (fuel : Nat) (c : Char) (rest : Str) :
    parseJsonItems (fuel + 1) (c :: rest) =
      if c = '"' then
        match parseJsonString rest with
        | none => none
        | some (s, r) =>
          match r with
          | [] => none
          | d :: r2 =>
            if d = ']' then (if r2 = [] then some [s] else none)
            else if d = ',' then (parseJsonItems fuel r2).map (fun xs => s :: xs)
            else none
      else none := rfl

theorem parseTags_cons (c : Char) (rest : Str) :
    parseTags (c :: rest) =
      if c = '[' then
        (if rest = [']'] then some [] else parseJsonItems (rest.length + 2) rest)
      else none := rfl

theorem length_le_intercalate_quotes :
    ∀ (items : List Str),
      items.length ≤ (List.intercalate [','] (items.map jsonQuote)).length + 1 := by
  intro items
  induction items with
  | nil => simp
  | cons x rest ih =>
    cases rest with
    | nil => simp
    | cons y t =>
      rw [List.map_cons, List.map_cons, intercalate_cons₂]
      simp only [List.map_cons, List.length_cons, List.length_append] at ih ⊢
      omega

theorem parseJsonItems_roundtrip :
    ∀ (items : List Str) (fuel : Nat), items ≠ [] →
      (∀ s ∈ items, ∀ c ∈ s, plainChar c) → items.length ≤ fuel →
      parseJsonItems fuel (List.intercalate [','] (items.map jsonQuote) ++ [']']) =
        some items := by
  intro items
  induction items with
  | nil => intro fuel h; exact absurd rfl h
  | cons x rest ih =>
    intro fuel _ hplain hfuel
    have hx : ∀ c ∈ x, plainChar c := hplain x (List.mem_cons_self _ _)
    cases fuel with
    | zero => simp at hfuel
    | succ fuel =>
      cases rest with
      | nil =>
        rw [List.map_singleton, intercalate_singleton]
        have he : jsonQuote x ++ [']'] = '"' :: (x ++ '"' :: [']']) := by
          unfold jsonQuote
          rw [flatMap_escChar_plain hx]
          simp
        rw [he, parseJsonItems_cons, if_pos rfl, parseJsonString_plain hx]
        rfl
      | cons y t =>
        rw [List.map_cons, List.map_cons, intercalate_cons₂]
        have he : (jsonQuote x ++ [','] ++
            List.intercalate [','] (jsonQuote y :: t.map jsonQuote)) ++ [']'] =
            '"' :: (x ++ '"' ::
              (',' :: (List.intercalate [','] (jsonQuote y :: t.map jsonQuote) ++ [']']))) := by
          unfold jsonQuote
          rw [flatMap_escChar_plain hx]
          simp
        rw [he, parseJsonItems_cons, if_pos rfl, parseJsonString_plain hx]
        show (parseJsonItems fuel
            (List.intercalate [','] (jsonQuote y :: t.map jsonQuote) ++ [']'])).map
            (fun xs => x :: xs) = some (x :: y :: t)
        have hrec := ih fuel (by simp)
          (fun s hs => hplain s (List.mem_cons_of_mem _ hs))
          (by simp only [List.length_cons] at hfuel ⊢; omega)
        rw [List.map_cons] at hrec
        rw [hrec]
        rfl

theorem parseTags_stringifyTags {items : List Str} (hne : items ≠ [])
    (hplain : ∀ s ∈ items, ∀ c ∈ s, plainChar c) :
    parseTags (stringifyTags items) = some items := by
  obtain ⟨x, rest, rfl⟩ := List.exists_cons_of_ne_nil hne
  show parseTags ('[' :: (List.intercalate [','] ((x :: rest).map jsonQuote) ++ [']'])) = _
  rw [parseTags_cons, if_pos rfl]
  have hlen : ¬ (List.intercalate [','] ((x :: rest).map jsonQuote) ++ [']'] = [']']) := by
    intro he
    have := congrArg List.length he
    simp only [List.length_append, List.length_singleton] at this
    have h2 : (List.intercalate [','] ((x :: rest).map jsonQuote)).length = 0 := by omega
    rw [List.length_eq_zero] at h2
    cases rest with
    | nil =>
      rw [List.map_singleton, intercalate_singleton] at h2
      unfold jsonQuote at h2
      simp at h2
    | cons y t =>
      rw [List.map_cons, List.map_cons, intercalate_cons₂] at h2
      unfold jsonQuote at h2
      simp at h2
  rw [if_neg hlen]
  apply parseJsonItems_roundtrip _ _ hne hplain
  have := length_le_intercalate_quotes (x :: rest)
  simp only [List.length_append, List.length_singleton]
  omega

theorem applyTagsToRow_eq_empty_truthy {r : RowState}
    (htok : (findTrailingTags r.text).isEmpty = true)
    (hattr : jsTruthy (getRowTagsAttribute r) = true) :
    applyTagsToRow r = removeRowTagsAttribute r := by
  unfold applyTagsToRow
  simp [htok, hattr]

theorem applyTagsToRow_eq_empty_falsy {r : RowState}
    (htok : (findTrailingTags r.text).isEmpty = true)
    (hattr : jsTruthy (getRowTagsAttribute r) = false) :
    applyTagsToRow r = (r, []) := by
  unfold applyTagsToRow
  simp [htok, hattr]

theorem applyTagsToRow_eq_unchanged {r : RowState}
    (htok : (findTrailingTags r.text).isEmpty = false)
    (hsame : tagsUnchanged r
      (sortBy lexLe (candidateTagPaths (findTrailingTags r.text))) = true) :
    applyTagsToRow r = (r, []) := by
  unfold applyTagsToRow
  simp [htok, hsame]

theorem applyTagsToRow_eq_apply {r : RowState}
    (htok : (findTrailingTags r.text).isEmpty = false)
    (hsame : tagsUnchanged r
      (sortBy lexLe (candidateTagPaths (findTrailingTags r.text))) = false) :
    applyTagsToRow r =
      ({ r with
          markers := r.markers.filter markerKept ++
            (attachMarkers (findTrailingTags r.text)).1,
          tagsNew := some (stringifyTags
            (sortBy lexLe (candidateTagPaths (findTrailingTags r.text)))),
          tagsOld := some (stringifyTags
            (sortBy lexLe (candidateTagPaths (findTrailingTags r.text)))) },
       clearMarkerMuts ++ (attachMarkers (findTrailingTags r.text)).2 ++
         [Mut.setAttr AttrKey.btTags (stringifyTags
            (sortBy lexLe (candidateTagPaths (findTrailingTags r.text)))),
          Mut.setAttr AttrKey.dataBtTags (stringifyTags
            (sortBy lexLe (candidateTagPaths (findTrailingTags r.text))))]) := by
  unfold applyTagsToRow
  simp [htok, hsame]

theorem tagsUnchanged_true_of {r : RowState} {newSet existing : List Str} {v : Str}
    (hget : getRowTagsAttribute r = some v) (hne : v.isEmpty = false)
    (hparse : parseTags v = some existing) (hsort : sortBy lexLe existing = newSet) :
    tagsUnchanged r newSet = true := by
  simp only [tagsUnchanged, hget, jsTruthy, hne, Bool.not_false, if_pos, hparse, hsort]
  simp

theorem mem_candidateTagPaths_iff {a : Str} {toks : List TagToken} :
    a ∈ candidateTagPaths toks ↔
      ∃ tok ∈ toks, a ∈ addAncestors (normalizeTag tok.tag) := by
  unfold candidateTagPaths
  rw [mem_candidateTagPaths]
  simp

theorem newSet_plain {text : Str} :
    ∀ s ∈ sortBy lexLe (candidateTagPaths (findTrailingTags text)),
      ∀ c ∈ s, plainChar c := by
  intro s hs
  rw [mem_sortBy, mem_candidateTagPaths_iff] at hs
  obtain ⟨tok, htok, hs⟩ := hs
  exact addAncestors_chars_plain
    (normalizeTag_chars_plain (tagShaped_chars_plain (findTrailingTags_tagShaped htok)))
    s hs

theorem newSet_ne_nil {text : Str}
    (h : (findTrailingTags text).isEmpty = false) :
    sortBy lexLe (candidateTagPaths (findTrailingTags text)) ≠ [] := by
  rw [List.isEmpty_eq_false_iff_exists_mem] at h
  obtain ⟨tok, htok⟩ := h
  obtain ⟨a, ha⟩ := List.exists_mem_of_ne_nil _
    (addAncestors_ne_nil (normalizeTag tok.tag))
  apply List.ne_nil_of_mem (a := a)
  rw [mem_sortBy, mem_candidateTagPaths_iff]
  exact ⟨tok, htok, ha⟩

/-- C6: running the Change-Gated Updater twice in succession with no
intervening text change performs zero mutations on the second run, for every
row text and every starting attribute and marker state: the second run
returns the first run's row state unchanged with an empty mutation list. -/
theorem applyTagsToRow_idempotent (r : RowState) :
    applyTagsToRow ((applyTagsToRow r).1) = ((applyTagsToRow r).1, []) := by
  by_cases htok : (findTrailingTags r.text).isEmpty = true
  · by_cases hattr : jsTruthy (getRowTagsAttribute r) = true
    · rw [applyTagsToRow_eq_empty_truthy htok hattr]
      exact applyTagsToRow_eq_empty_falsy (r := (removeRowTagsAttribute r).1) htok rfl
    · have hattr2 : jsTruthy (getRowTagsAttribute r) = false := by
        revert hattr
        cases jsTruthy (getRowTagsAttribute r) <;> simp
      rw [applyTagsToRow_eq_empty_falsy htok hattr2]
      exact applyTagsToRow_eq_empty_falsy htok hattr2
  · have htokf : (findTrailingTags r.text).isEmpty = false := by
      revert htok
      cases (findTrailingTags r.text).isEmpty <;> simp
    by_cases hsame : tagsUnchanged r
        (sortBy lexLe (candidateTagPaths (findTrailingTags r.text))) = true
    · rw [applyTagsToRow_eq_unchanged htokf hsame]
      exact applyTagsToRow_eq_unchanged htokf hsame
    · have hsame2 : tagsUnchanged r
          (sortBy lexLe (candidateTagPaths (findTrailingTags r.text))) = false := by
        revert hsame
        cases tagsUnchanged r
          (sortBy lexLe (candidateTagPaths (findTrailingTags r.text))) <;> simp
      rw [applyTagsToRow_eq_apply htokf hsame2]
      apply applyTagsToRow_eq_unchanged (r := _)
      · exact htokf
      · exact tagsUnchanged_true_of (v := stringifyTags
            (sortBy lexLe (candidateTagPaths (findTrailingTags r.text))))
          rfl rfl
          (parseTags_stringifyTags (newSet_ne_nil htokf) newSet_plain)
          (sortBy_idem lexLe_total _)

theorem mem_append_singleton {a x : α} {l : List α} :
    a ∈ l ++ [x] ↔ a ∈ l ∨ a = x := by
  rw [List.mem_append, List.mem_singleton]

theorem roots_hierStep {s : HierState} {t r : Str} :
    r ∈ (hierStep s t).roots ↔
      r ∈ s.roots ∨
      (¬ 0 < jsLastIndexOf t '/' ∧ r = t) ∨
      (0 < jsLastIndexOf t '/' ∧ r = parentStr t ∧
        jsIndexOf (parentStr t) '/' = -1) := by
  unfold hierStep
  by_cases hpos : 0 < jsLastIndexOf t '/'
  · rw [if_pos hpos]
    simp only [apply_ite HierState.roots]
    by_cases hcond : jsIndexOf (parentStr t) '/' = -1 ∧ parentStr t ∉ s.roots
    · rw [if_pos hcond, mem_append_singleton]
      constructor
      · rintro (h | rfl)
        · exact Or.inl h
        · exact Or.inr (Or.inr ⟨hpos, rfl, hcond.1⟩)
      · rintro (h | ⟨hns, rfl⟩ | ⟨_, rfl, _⟩)
        · exact Or.inl h
        · exact absurd hpos hns
        · exact Or.inr rfl
    · rw [if_neg hcond]
      constructor
      · exact Or.inl
      · rintro (h | ⟨hns, rfl⟩ | ⟨_, rfl, hidx⟩)
        · exact h
        · exact absurd hpos hns
        · rcases Decidable.not_and_iff_or_not.mp hcond with h2 | h2
          · exact absurd hidx h2
          · exact Decidable.not_not.mp h2
  · rw [if_neg hpos]
    simp only [apply_ite HierState.roots]
    by_cases ht : t ∉ s.roots
    · rw [if_pos ht, mem_append_singleton]
      constructor
      · rintro (h | rfl)
        · exact Or.inl h
        · exact Or.inr (Or.inl ⟨hpos, rfl⟩)
      · rintro (h | ⟨_, rfl⟩ | ⟨hp, _, _⟩)
        · exact Or.inl h
        · exact Or.inr rfl
        · exact absurd hp hpos
    · rw [if_neg ht]
      constructor
      · exact Or.inl
      · rintro (h | ⟨_, rfl⟩ | ⟨hp, _, _⟩)
        · exact h
        · exact Decidable.not_not.mp ht
        · exact absurd hp hpos

theorem childrenF_hierStep {s : HierState} {t p c : Str} :
    c ∈ (hierStep s t).childrenF p ↔
      c ∈ s.childrenF p ∨
      (0 < jsLastIndexOf t '/' ∧ p = parentStr t ∧ c = t) := by
  unfold hierStep
  by_cases hpos : 0 < jsLastIndexOf t '/'
  · rw [if_pos hpos]
    simp only [apply_ite HierState.childrenF, ite_self]
    by_cases hp : p = parentStr t
    · rw [if_pos hp]
      subst hp
      by_cases htl : t ∈ s.childrenF (parentStr t)
      · rw [if_pos htl]
        constructor
        · exact Or.inl
        · rintro (h | ⟨_, _, rfl⟩)
          · exact h
          · exact htl
      · rw [if_neg htl, mem_append_singleton]
        constructor
        · rintro (h | rfl)
          · exact Or.inl h
          · exact Or.inr ⟨hpos, rfl, rfl⟩
        · rintro (h | ⟨_, _, rfl⟩)
          · exact Or.inl h
          · exact Or.inr rfl
    · rw [if_neg hp]
      constructor
      · exact Or.inl
      · rintro (h | ⟨_, hpp, _⟩)
        · exact h
        · exact absurd hpp hp
  · rw [if_neg hpos]
    simp only [apply_ite HierState.childrenF, ite_self]
    constructor
    · exact Or.inl
    · rintro (h | ⟨hp, _, _⟩)
      · exact h
      · exact absurd hp hpos

theorem nodes_hierStep {s : HierState} {t n : Str} :
    n ∈ (hierStep s t).nodes ↔
      n ∈ s.nodes ∨ n = t ∨ (0 < jsLastIndexOf t '/' ∧ n = parentStr t) := by
  unfold hierStep
  by_cases hpos : 0 < jsLastIndexOf t '/'
  · rw [if_pos hpos]
    simp only [apply_ite HierState.nodes, ite_self]
    rw [mem_addUnique, mem_addUnique]
    constructor
    · rintro ((h | rfl) | rfl)
      · exact Or.inl h
      · exact Or.inr (Or.inl rfl)
      · exact Or.inr (Or.inr ⟨hpos, rfl⟩)
    · rintro (h | rfl | ⟨_, rfl⟩)
      · exact Or.inl (Or.inl h)
      · exact Or.inl (Or.inr rfl)
      · exact Or.inr rfl
  · rw [if_neg hpos]
    simp only [apply_ite HierState.nodes, ite_self]
    rw [mem_addUnique]
    constructor
    · rintro (h | rfl)
      · exact Or.inl h
      · exact Or.inr (Or.inl rfl)
    · rintro (h | rfl | ⟨hp, _⟩)
      · exact Or.inl h
      · exact Or.inr rfl
      · exact absurd hp hpos

theorem roots_foldl {l : List Str} : ∀ {s : HierState} {r : Str},
    r ∈ (l.foldl hierStep s).roots ↔
      r ∈ s.roots ∨ ∃ t ∈ l,
        ((¬ 0 < jsLastIndexOf t '/' ∧ r = t) ∨
         (0 < jsLastIndexOf t '/' ∧ r = parentStr t ∧
           jsIndexOf (parentStr t) '/' = -1)) := by
  induction l with
  | nil => intro s r; simp
  | cons t ts ih =>
    intro s r
    rw [List.foldl_cons, ih, roots_hierStep]
    simp only [List.mem_cons]
    constructor
    · rintro ((h | h | h) | ⟨u, hu, hcase⟩)
      · exact Or.inl h
      · exact Or.inr ⟨t, Or.inl rfl, Or.inl h⟩
      · exact Or.inr ⟨t, Or.inl rfl, Or.inr h⟩
      · exact Or.inr ⟨u, Or.inr hu, hcase⟩
    · rintro (h | ⟨u, (rfl | hu), hcase⟩)
      · exact Or.inl (Or.inl h)
      · rcases hcase with h | h
        · exact Or.inl (Or.inr (Or.inl h))
        · exact Or.inl (Or.inr (Or.inr h))
      · exact Or.inr ⟨u, hu, hcase⟩

theorem childrenF_foldl {l : List Str} : ∀ {s : HierState} {p c : Str},
    c ∈ (l.foldl hierStep s).childrenF p ↔
      c ∈ s.childrenF p ∨
        (c ∈ l ∧ 0 < jsLastIndexOf c '/' ∧ p = parentStr c) := by
  induction l with
  | nil => intro s p c; simp
  | cons t ts ih =>
    intro s p c
    rw [List.foldl_cons, ih, childrenF_hierStep]
    simp only [List.mem_cons]
    constructor
    · rintro ((h | ⟨hpos, hpp, rfl⟩) | ⟨hc, hpos, hpp⟩)
      · exact Or.inl h
      · exact Or.inr ⟨Or.inl rfl, hpos, hpp⟩
      · exact Or.inr ⟨Or.inr hc, hpos, hpp⟩
    · rintro (h | ⟨(rfl | hc), hpos, hpp⟩)
      · exact Or.inl (Or.inl h)
      · exact Or.inl (Or.inr ⟨hpos, hpp, rfl⟩)
      · exact Or.inr ⟨hc, hpos, hpp⟩

theorem nodes_foldl {l : List Str} : ∀ {s : HierState} {n : Str},
    n ∈ (l.foldl hierStep s).nodes ↔
      n ∈ s.nodes ∨ n ∈ l ∨
        ∃ t ∈ l, 0 < jsLastIndexOf t '/' ∧ n = parentStr t := by
  induction l with
  | nil => intro s n; simp
  | cons t ts ih =>
    intro s n
    rw [List.foldl_cons, ih, nodes_hierStep]
    simp only [List.mem_cons]
    constructor
    · rintro ((h | rfl | h) | h | ⟨u, hu, hc⟩)
      · exact Or.inl h
      · exact Or.inr (Or.inl (Or.inl rfl))
      · exact Or.inr (Or.inr ⟨t, Or.inl rfl, h⟩)
      · exact Or.inr (Or.inl (Or.inr h))
      · exact Or.inr (Or.inr ⟨u, Or.inr hu, hc⟩)
    · rintro (h | (rfl | h) | ⟨u, (rfl | hu), hc⟩)
      · exact Or.inl (Or.inl h)
      · exact Or.inl (Or.inr (Or.inl rfl))
      · exact Or.inr (Or.inl h)
      · exact Or.inl (Or.inr (Or.inr hc))
      · exact Or.inr (Or.inr ⟨u, hu, hc⟩)

theorem mem_roots_build {tags : List Str} {r : Str} :
    r ∈ (buildTagHierarchy tags).roots ↔
      ∃ t ∈ tags,
        ((¬ 0 < jsLastIndexOf t '/' ∧ r = t) ∨
         (0 < jsLastIndexOf t '/' ∧ r = parentStr t ∧
           jsIndexOf (parentStr t) '/' = -1)) := by
  unfold buildTagHierarchy
  rw [roots_foldl]
  simp only [hierInit, List.not_mem_nil, false_or]
  constructor
  · rintro ⟨t, ht, h⟩
    exact ⟨t, mem_sortBy.mp ht, h⟩
  · rintro ⟨t, ht, h⟩
    exact ⟨t, mem_sortBy.mpr ht, h⟩

theorem mem_children_build {tags : List Str} {p c : Str} :
    c ∈ (buildTagHierarchy tags).childrenF p ↔
      c ∈ tags ∧ 0 < jsLastIndexOf c '/' ∧ p = parentStr c := by
  unfold buildTagHierarchy
  rw [childrenF_foldl]
  simp only [hierInit, List.not_mem_nil, false_or]
  rw [mem_sortBy]

theorem mem_nodes_build {tags : List Str} {n : Str} :
    n ∈ (buildTagHierarchy tags).nodes ↔
      n ∈ tags ∨ ∃ t ∈ tags, 0 < jsLastIndexOf t '/' ∧ n = parentStr t := by
  unfold buildTagHierarchy
  rw [nodes_foldl]
  simp only [hierInit, List.not_mem_nil, false_or]
  rw [mem_sortBy]
  constructor
  · rintro (h | ⟨t, ht, hc⟩)
    · exact Or.inl h
    · exact Or.inr ⟨t, mem_sortBy.mp ht, hc⟩
  · rintro (h | ⟨t, ht, hc⟩)
    · exact Or.inl h
    · exact Or.inr ⟨t, mem_sortBy.mpr ht, hc⟩

theorem jsLastIndexOf_mem {l : Str} {c : Char} (h : 0 < jsLastIndexOf l c) :
    c ∈ l := by
  unfold jsLastIndexOf at h
  cases hf : l.reverse.findIdx? (fun d => d = c) with
  | none => rw [hf] at h; simp at h
  | some j =>
    obtain ⟨hj, hpred, _⟩ := List.findIdx?_eq_some_iff_getElem.mp hf
    rw [decide_eq_true_eq] at hpred
    have : c ∈ l.reverse := hpred ▸ List.getElem_mem hj
    exact List.mem_reverse.mp this

theorem parentStr_length_lt {t : Str} (h : 0 < jsLastIndexOf t '/') :
    (parentStr t).length < t.length := by
  unfold parentStr
  unfold jsLastIndexOf
  cases hf : t.reverse.findIdx? (fun d => d = '/') with
  | none =>
    unfold jsLastIndexOf at h
    rw [hf] at h
    simp at h
  | some j =>
    obtain ⟨hj, _, _⟩ := List.findIdx?_eq_some_iff_getElem.mp hf
    rw [List.length_reverse] at hj
    show (List.take ((((t.length - 1 - j : Nat) : Int)).toNat) t).length < t.length
    rw [List.length_take]
    simp only [Int.toNat_ofNat]
    omega

theorem jsIndexOf_eq_neg_one_iff {l : Str} {c : Char} :
    jsIndexOf l c = -1 ↔ c ∉ l := by
  unfold jsIndexOf
  cases hf : l.findIdx? (fun d => d = c) with
  | none =>
    show (-1 : Int) = -1 ↔ c ∉ l
    rw [List.findIdx?_eq_none_iff] at hf
    constructor
    · intro _ hc
      have h2 := hf c hc
      simp at h2
    · intro _
      rfl
  | some j =>
    obtain ⟨hj, hpred, _⟩ := List.findIdx?_eq_some_iff_getElem.mp hf
    rw [decide_eq_true_eq] at hpred
    have hmem : c ∈ l := hpred ▸ List.getElem_mem hj
    show ((j : Nat) : Int) = -1 ↔ c ∉ l
    constructor
    · intro he
      exact absurd he (by omega)
    · intro hni
      exact absurd hmem hni

theorem build_root_no_inedge {tags : List Str} {r : Str}
    (hr : r ∈ (buildTagHierarchy tags).roots) :
    ∀ p, r ∉ (buildTagHierarchy tags).childrenF p := by
  intro p hmem
  rw [mem_children_build] at hmem
  rw [mem_roots_build] at hr
  obtain ⟨t, _, hcase⟩ := hr
  rcases hcase with ⟨hneg, rfl⟩ | ⟨_, rfl, hidx⟩
  · exact hneg hmem.2.1
  · exact (jsIndexOf_eq_neg_one_iff.mp hidx) (jsLastIndexOf_mem hmem.2.1)

theorem build_node_cover {tags : List Str} {n : Str}
    (H : ∀ t ∈ tags, 0 < jsLastIndexOf t '/' →
      '/' ∈ parentStr t → parentStr t ∈ tags)
    (hn : n ∈ (buildTagHierarchy tags).nodes) :
    n ∈ (buildTagHierarchy tags).roots ∨
      (0 < jsLastIndexOf n '/' ∧
       n ∈ (buildTagHierarchy tags).childrenF (parentStr n) ∧
       parentStr n ∈ (buildTagHierarchy tags).nodes) := by
  rw [mem_nodes_build] at hn
  have hor : n ∈ tags ∨ n ∈ (buildTagHierarchy tags).roots := by
    rcases hn with h | ⟨t, ht, hpos, rfl⟩
    · exact Or.inl h
    · by_cases hsl : '/' ∈ parentStr t
      · exact Or.inl (H t ht hpos hsl)
      · right
        rw [mem_roots_build]
        exact ⟨t, ht, Or.inr ⟨hpos, rfl, jsIndexOf_eq_neg_one_iff.mpr hsl⟩⟩
  rcases hor with htag | hroot
  · by_cases hpos : 0 < jsLastIndexOf n '/'
    · right
      refine ⟨hpos, ?_, ?_⟩
      · rw [mem_children_build]
        exact ⟨htag, hpos, rfl⟩
      · rw [mem_nodes_build]
        exact Or.inr ⟨n, htag, hpos, rfl⟩
    · left
      rw [mem_roots_build]
      exact ⟨n, htag, Or.inl ⟨hpos, rfl⟩⟩
  · exact Or.inl hroot

theorem build_children_parent {tags : List Str} {c p : Str}
    (h : c ∈ (buildTagHierarchy tags).childrenF p) : p = parentStr c :=
  (mem_children_build.mp h).2.2

theorem reachBy_unique {tags : List Str} :
    ∀ {n : Str} {p₁ : List Str}, ReachBy (buildTagHierarchy tags) p₁ n →
    ∀ {p₂ : List Str}, ReachBy (buildTagHierarchy tags) p₂ n → p₁ = p₂ := by
  intro n p₁ h1
  induction h1 with
  | root r hr =>
    intro p₂ h2
    cases h2 with
    | root _ _ => rfl
    | step p a b hp hb => exact absurd hb (build_root_no_inedge hr a)
  | step p a b hp hb ih =>
    intro p₂ h2
    cases h2 with
    | root _ hr => exact absurd hb (build_root_no_inedge hr a)
    | step p2 a2 b hp2 hb2 =>
      have ha : a2 = a := (build_children_parent hb2).trans
        (build_children_parent hb).symm
      rw [ha] at hp2
      rw [ih hp2]

theorem reachBy_exists {tags : List Str}
    (H : ∀ t ∈ tags, 0 < jsLastIndexOf t '/' →
      '/' ∈ parentStr t → parentStr t ∈ tags) :
    ∀ (k : Nat) (n : Str), n.length < k →
      n ∈ (buildTagHierarchy tags).nodes →
      ∃ p, ReachBy (buildTagHierarchy tags) p n := by
  intro k
  induction k with
  | zero =>
    intro n h
    omega
  | succ k ih =>
    intro n hlen hn
    rcases build_node_cover H hn with hr | ⟨hpos, hedge, hpn⟩
    · exact ⟨[n], ReachBy.root n hr⟩
    · obtain ⟨p, hp⟩ := ih (parentStr n)
        (by have := parentStr_length_lt hpos; omega) hpn
      exact ⟨p ++ [n], ReachBy.step p _ n hp hedge⟩

/-- C2 amended: provided every synthesized parent path has no further
ancestor (for every tag whose parent path itself contains `/`, that parent
path is present in the input set), every node of the built hierarchy — input
tag or synthesized parent — is reachable from a root by exactly one
root-to-node path; and a synthesized parent path without `/` always becomes
a root.  Without the proviso, a subtree under a multi-segment synthesized
parent is orphaned (see the counterexample). -/
theorem buildTagHierarchy_amended_unique_path (tags : List Str)
    (H : ∀ t ∈ tags, 0 < jsLastIndexOf t '/' →
      '/' ∈ parentStr t → parentStr t ∈ tags) :
    (∀ n ∈ (buildTagHierarchy tags).nodes,
      ∃! p, ReachBy (buildTagHierarchy tags) p n) ∧
    (∀ t ∈ tags, 0 < jsLastIndexOf t '/' → '/' ∉ parentStr t →
      parentStr t ∈ (buildTagHierarchy tags).roots) := by
  constructor
  · intro n hn
    obtain ⟨p, hp⟩ := reachBy_exists H (n.length + 1) n (by omega) hn
    exact ⟨p, hp, fun q hq => reachBy_unique hq hp⟩
  · intro t ht hpos hsl
    rw [mem_roots_build]
    exact ⟨t, ht, Or.inr ⟨hpos, rfl, jsIndexOf_eq_neg_one_iff.mpr hsl⟩⟩

/-- C2 counterexample: from the tag set `{"#a/b/c"}` the builder synthesizes
the parent node `"#a/b"` but, because that parent itself contains `/`, never
attaches it to any root and never makes it a root: the root list comes out
empty while the node `"#a/b/c"` exists, so `"#a/b/c"` is orphaned —
unreachable from every root — contradicting the claim. -/
theorem buildTagHierarchy_orphan_counterexample :
    (buildTagHierarchy ["#a/b/c".data]).roots = [] ∧
    "#a/b/c".data ∈ (buildTagHierarchy ["#a/b/c".data]).nodes ∧
    ¬ ∃ p, ReachBy (buildTagHierarchy ["#a/b/c".data]) p "#a/b/c".data := by
  have hroots : (buildTagHierarchy ["#a/b/c".data]).roots = [] := by decide
  refine ⟨hroots, by decide, ?_⟩
  rintro ⟨p, hp⟩
  have hnone : ∀ (q : List Str) (n : Str),
      ReachBy (buildTagHierarchy ["#a/b/c".data]) q n → False := by
    intro q n h
    induction h with
    | root r hr =>
      rw [hroots] at hr
      exact absurd hr (List.not_mem_nil r)
    | step _ _ _ _ _ ih => exact ih
  exact hnone p _ hp

/-- Witness for the amended C2 on the concrete set `{"#x/y"}`, whose
synthesized parent `"#x"` has no further ancestor: the node `"#x/y"` is
reachable by exactly one root-to-node path. -/
theorem buildTagHierarchy_amended_witness :
    (∀ t ∈ (["#x/y".data] : List Str), 0 < jsLastIndexOf t '/' →
      '/' ∈ parentStr t → parentStr t ∈ (["#x/y".data] : List Str)) ∧
    "#x/y".data ∈ (buildTagHierarchy ["#x/y".data]).nodes ∧
    (∃! p, ReachBy (buildTagHierarchy ["#x/y".data]) p "#x/y".data) :=
  ⟨by decide, by decide,
   (buildTagHierarchy_amended_unique_path ["#x/y".data] (by decide)).1 _ (by decide)⟩

/-
Sanity checks of the embedding on the concrete scenarios of the
specification (tokenizer scenarios, hierarchy scenario, filter scenarios,
palette determinism, persisted-set round trips).
-/
example : (findTrailingTags "Do something important #this #that/nested".data).map (fun t => (String.mk t.tag, t.start, t.stop)) = [("#this", 23, 28), ("#that/nested", 29, 41)] := by decide
example : findTrailingTags "Review the #draft document".data = [] := by decide
example : findTrailingTags "#a#b".data = [] := by decide
example : (findTrailingTags "#only".data).map (fun t => (String.mk t.tag, t.start, t.stop)) = [("#only", 0, 5)] := by decide
example : (findTrailingTags " #b".data).map (fun t => (String.mk t.tag, t.start, t.stop)) = [("#b", 0, 2)] := by decide
example : (findTrailingTags "a\t#b".data).map (fun t => (String.mk t.tag, t.start, t.stop)) = [("#b", 1, 3)] := by decide
example : (findTrailingTags "x #a  #b".data).map (fun t => (String.mk t.tag, t.start, t.stop)) = [("#a", 2, 4), ("#b", 6, 8)] := by decide
example : String.mk (normalizeTag "#a//b//c".data) = "#a/b//c" := by decide
example : String.mk (normalizeTag "a/b".data) = "#a/b" := by decide
example : (addAncestors "#a/b/c".data).map String.mk = ["#a", "#a/b", "#a/b/c"] := by decide
example : (addAncestors "#a".data).map String.mk = ["#a"] := by decide
example : stableIndexForTag "#this".data 8 = colorSlotSpec "#this".data 8 := by decide
example : String.mk (stringifyTags ["#a".data, "#a/b".data]) = "[\"#a\",\"#a/b\"]" := by decide
example : parseTags "[\"#a\",\"#a/b\"]".data = some ["#a".data, "#a/b".data] := by decide
example : parseTags "[]".data = some [] := by decide
example : parseTags "garbage".data = none := by decide
example : parseTags "[\"#a\",]".data = none := by decide
example : (sortBy lexLe ["#that/nested".data, "#that".data, "#this".data]).map String.mk = ["#that", "#that/nested", "#this"] := by decide
example : ((buildTagHierarchy ["#a".data, "#a/b".data, "#a/b/c".data, "#x".data]).roots).map String.mk = ["#a", "#x"] := by decide
example : ((buildTagHierarchy ["#a".data, "#a/b".data, "#a/b/c".data, "#x".data]).childrenF "#a".data).map String.mk = ["#a/b"] := by decide
example : ((buildTagHierarchy ["#a".data, "#a/b".data, "#a/b/c".data, "#x".data]).childrenF "#a/b".data).map String.mk = ["#a/b/c"] := by decide
example : (buildTagHierarchy ["#a/b/c".data]).roots = [] := by decide
example : ((buildTagHierarchy ["#a/b/c".data]).nodes).map String.mk = ["#a/b/c", "#a/b"] := by decide
example : ((buildTagHierarchy ["#x/y".data]).roots).map String.mk = ["#x"] := by decide
example : tagMatches ["#this".data, "#that".data, "#that/nested".data] "#that".data = true := by decide
example : tagMatches ["#this".data] "#that".data = false := by decide
example : tagMatches ["#projectx".data] "#project".data = false := by decide
example : (applyTagsToRow ⟨"hello".data, some "x".data, none, none, none, [(MarkName.biketag, 0, 2)]⟩).1.markers = [(MarkName.biketag, 0, 2)] := by decide
example : (applyTagsToRow ⟨"hello".data, some "x".data, none, none, none, [(MarkName.biketag, 0, 2)]⟩).2 = [Mut.removeAttr AttrKey.btTags, Mut.removeAttr AttrKey.dataBtTags] := by decide
example : (applyTagsToRow ⟨"a #b".data, none, none, none, none, []⟩).1.tagsNew = some "[\"#b\"]".data := by decide
example : (applyTagsToRow ((applyTagsToRow ⟨"a #b #c/d".data, some "junk".data, none, none, none, []⟩).1)).2 = [] := by decide
example : (applyTagsToRow ⟨"Do something important #this #that/nested".data, none, none, none, none, []⟩).1.tagsNew = some "[\"#that\",\"#that/nested\",\"#this\"]".data := by decide
